import Mathlib

/-!
Verification development for the pure-rust-locales repository.

Part 1: a shallow embedding of the locale-file grammar parser
(`src/generate-api/src/parser.rs`, and the variant embedded in `src/build.rs`).
The Rust code is written against nom 5: parsers return either a remaining
input plus a value, a recoverable error (`Err::Error`), or an unrecoverable
failure (`Err::Failure`, produced by `cut`).  We model inputs as `List Char`
and results with the three-state type `PRes`.  Looping combinators
(`many0`, `many1`, `separated_list`, `fold_many0`, ...) in nom abort with an
error whenever an iteration consumes no input, so every iteration strictly
shrinks the remaining input; we make the loops total with a fuel argument
instantiated to `input.length + 1`, which can therefore never run out.
-/

namespace Parser

/-- Result of a nom parser: remaining input and value, recoverable error
(`Err::Error`), or unrecoverable failure (`Err::Failure`). -/
inductive PRes (α : Type) where
  | ok (rest : List Char) (val : α)
  | err
  | fail
deriving DecidableEq, Repr

/-- nom `map`: apply a function to the parsed value. -/
def PRes.pmap (f : α → β) : PRes α → PRes β
  | .ok rest v => .ok rest (f v)
  | .err => .err
  | .fail => .fail

/-- nom `alt` of two parsers: try the second only on a recoverable error. -/
def altP (p q : List Char → PRes α) (i : List Char) : PRes α :=
  match p i with
  | .err => q i
  | r => r

/-- nom `opt`: recoverable error becomes `none` without consuming input. -/
def optP (p : List Char → PRes α) (i : List Char) : PRes (Option α) :=
  match p i with
  | .ok rest v => .ok rest (some v)
  | .err => .ok i none
  | .fail => .fail

/-- nom `cut`: upgrade a recoverable error to a failure. -/
def cutP (p : List Char → PRes α) (i : List Char) : PRes α :=
  match p i with
  | .err => .fail
  | r => r

/-- nom `preceded`: run `p`, drop its value, then run `q`. -/
def precededP (p : List Char → PRes α) (q : List Char → PRes β) (i : List Char) : PRes β :=
  match p i with
  | .ok rest _ => q rest
  | .err => .err
  | .fail => .fail

/-- nom `terminated`: run `p`, then `q`, keeping `p`'s value. -/
def terminatedP (p : List Char → PRes α) (q : List Char → PRes β) (i : List Char) : PRes α :=
  match p i with
  | .ok rest v =>
    match q rest with
    | .ok rest2 _ => .ok rest2 v
    | .err => .err
    | .fail => .fail
  | .err => .err
  | .fail => .fail

/-- nom `separated_pair`: `p`, then `s` (discarded), then `q`. -/
def separatedPairP (p : List Char → PRes α) (s : List Char → PRes γ)
    (q : List Char → PRes β) (i : List Char) : PRes (α × β) :=
  match p i with
  | .ok r1 a =>
    match s r1 with
    | .ok r2 _ =>
      match q r2 with
      | .ok r3 b => .ok r3 (a, b)
      | .err => .err
      | .fail => .fail
    | .err => .err
    | .fail => .fail
  | .err => .err
  | .fail => .fail

/-- nom `char`. -/
def charP (c : Char) : List Char → PRes Char
  | [] => .err
  | c2 :: rest => if c2 = c then .ok rest c else .err

/-- nom `anychar`. -/
def anycharP : List Char → PRes Char
  | [] => .err
  | c :: rest => .ok rest c

/-- nom `one_of`. -/
def oneOfP (s : List Char) : List Char → PRes Char
  | [] => .err
  | c :: rest => if c ∈ s then .ok rest c else .err

/-- nom `tag`. -/
def tagP (t : List Char) (i : List Char) : PRes (List Char) :=
  if t.isPrefixOf i then .ok (i.drop t.length) t else .err

/-- nom `take(n)`. -/
def takeP (n : Nat) (i : List Char) : PRes (List Char) :=
  if n ≤ i.length then .ok (i.drop n) (i.take n) else .err

/-- nom `take_while`: never fails. -/
def takeWhileP (p : Char → Bool) (i : List Char) : PRes (List Char) :=
  .ok (i.dropWhile p) (i.takeWhile p)

/-- nom `take_while1`: error if the first character does not match. -/
def takeWhile1P (p : Char → Bool) (i : List Char) : PRes (List Char) :=
  match i.takeWhile p with
  | [] => .err
  | tk => .ok (i.dropWhile p) tk

/-- nom `space1`: one or more of space or tab. -/
def space1P : List Char → PRes (List Char) :=
  takeWhile1P (fun c => c = ' ' || c = '\t')

/-- nom `multispace0`. -/
def multispace0P : List Char → PRes (List Char) :=
  takeWhileP (fun c => c = ' ' || c = '\t' || c = '\n' || c = '\r')

/-- nom `multispace1`. -/
def multispace1P : List Char → PRes (List Char) :=
  takeWhile1P (fun c => c = ' ' || c = '\t' || c = '\n' || c = '\r')

/-- nom `hex_digit1`. -/
def hexDigit1P : List Char → PRes (List Char) :=
  takeWhile1P (fun c =>
    ('0' ≤ c && c ≤ '9') || ('a' ≤ c && c ≤ 'f') || ('A' ≤ c && c ≤ 'F'))

/-- nom `not_line_ending`: everything before `\r\n` or `\n`; a `\r` not
followed by `\n` is an error. -/
def notLineEndingP (i : List Char) : PRes (List Char) :=
  let pre := i.takeWhile (fun c => !(c = '\r' || c = '\n'))
  let rest := i.dropWhile (fun c => !(c = '\r' || c = '\n'))
  match rest with
  | '\r' :: '\n' :: _ => .ok rest pre
  | '\r' :: _ => .err
  | _ => .ok rest pre

/-- nom `all_consuming`. -/
def allConsumingP (p : List Char → PRes α) (i : List Char) : PRes α :=
  match p i with
  | .ok rest v => if rest.isEmpty then .ok rest v else .err
  | .err => .err
  | .fail => .fail

/-- Loop of nom `many0`/`fold_many0` (also the continuation loop of
`many1`/`fold_many1`): stop and succeed on a recoverable error, propagate a
failure, and error out if an iteration consumes nothing.  The fuel is
instantiated to more than the length of the remaining input, so the final
case is never reached for input-consuming parsers. -/
def many0Go (f : List Char → PRes α) : Nat → List Char → List α → PRes (List α)
  | 0, _, _ => .fail
  | fuel + 1, i, acc =>
    match f i with
    | .err => .ok i acc.reverse
    | .fail => .fail
    | .ok i1 o => if i1 = i then .err else many0Go f fuel i1 (o :: acc)

/-- nom `many0`. -/
def many0P (f : List Char → PRes α) (i : List Char) : PRes (List α) :=
  many0Go f (i.length + 1) i []

/-- nom `many1`: the first application must succeed, the loop then behaves
like `many0` (with the zero-consumption check). -/
def many1P (f : List Char → PRes α) (i : List Char) : PRes (List α) :=
  match f i with
  | .err => .err
  | .fail => .fail
  | .ok i1 o => many0Go f (i1.length + 1) i1 [o]

/-- nom `fold_many0` specialised to string concatenation, as used by
`parse_str`: equivalent to `many0` followed by concatenation. -/
def foldMany0StrP (f : List Char → PRes String) (i : List Char) : PRes String :=
  (many0P f i).pmap String.join

/-- nom `fold_many1` specialised to string concatenation, as used by
`parse_raw`. -/
def foldMany1StrP (f : List Char → PRes String) (i : List Char) : PRes String :=
  match f i with
  | .err => .err
  | .fail => .fail
  | .ok i1 o => (many0Go f (i1.length + 1) i1 [o]).pmap String.join

/-- Loop of nom 5 `separated_list`: parse separator then element; stop
(rolling the separator back) on a recoverable error of either; the
zero-consumption checks compare against the input from before the
separator. -/
def sepListGo (sep : List Char → PRes β) (f : List Char → PRes α) :
    Nat → List Char → List α → PRes (List α)
  | 0, _, _ => .fail
  | fuel + 1, i, acc =>
    match sep i with
    | .err => .ok i acc.reverse
    | .fail => .fail
    | .ok i1 _ =>
      if i1 = i then .err
      else
        match f i1 with
        | .err => .ok i acc.reverse
        | .fail => .fail
        | .ok i2 o => if i2 = i then .err else sepListGo sep f fuel i2 (o :: acc)

/-- nom 5 `separated_list`: an empty list on a recoverable error of the
first element, an error if the first element consumes nothing. -/
def separatedListP (sep : List Char → PRes β) (f : List Char → PRes α)
    (i : List Char) : PRes (List α) :=
  match f i with
  | .err => .ok i []
  | .fail => .fail
  | .ok i1 o => if i1 = i then .err else sepListGo sep f (i1.length + 1) i1 [o]

end Parser

namespace Parser

/-- `parser::Value` (`Str` is the source's `Value::String`). -/
inductive Value where
  | Raw (s : String)
  | Str (s : String)
  | Integer (n : Int)
deriving DecidableEq, Repr

/-- `impl From<&Value> for u8`: the type tag used by the arity classifier. -/
def Value.tag : Value → Nat
  | .Raw _ | .Str _ => 0
  | .Integer _ => 1

/-- One character of Rust's `{:?}` string formatting, restricted to the
escapes that can occur in this data (`\"`, `\\`, `\n`, `\r`, `\t`); other
characters are rendered verbatim. -/
def rustEscapeChar (c : Char) : List Char :=
  if c = '"' then ['\\', '"']
  else if c = '\\' then ['\\', '\\']
  else if c = '\n' then ['\\', 'n']
  else if c = '\r' then ['\\', 'r']
  else if c = '\t' then ['\\', 't']
  else [c]

/-- Rust's `{:?}` (Debug) formatting of a string: surrounding quotes plus
character escapes. -/
def rustDebugStr (s : String) : String :=
  String.mk ('"' :: (s.toList.flatMap rustEscapeChar) ++ ['"'])

/-- `impl Display for Value` (`write!(f, "{:?}", x)` in both arms). -/
def Value.display : Value → String
  | .Raw x | .Str x => rustDebugStr x
  | .Integer x => toString x

/-- Value of one hexadecimal digit. -/
def hexDigitVal (c : Char) : Nat :=
  if '0' ≤ c ∧ c ≤ '9' then c.toNat - '0'.toNat
  else if 'a' ≤ c ∧ c ≤ 'f' then c.toNat - 'a'.toNat + 10
  else c.toNat - 'A'.toNat + 10

/-- `u32::from_str_radix(x, 16)` on a nonempty all-hex-digit string: `none`
models the overflow error past `u32::MAX`. -/
def hexValueGo : Nat → List Char → Option Nat
  | acc, [] => some acc
  | acc, c :: t =>
    let acc2 := acc * 16 + hexDigitVal c
    if 2 ^ 32 ≤ acc2 then none else hexValueGo acc2 t

def hexValue (cs : List Char) : Option Nat := hexValueGo 0 cs

/-- `std::char::from_u32`: `none` on surrogates and out-of-range values. -/
def charFromU32 (n : Nat) : Option Char :=
  if Nat.isValidChar n then some (Char.ofNat n) else none

/-- `unescape_unicode`'s inner alternative (one chunk: either a run without
`<`, or a `<Uhhhh>` escape decoded to its code point). -/
def uniChunk (j : List Char) : PRes String :=
  altP
    (fun k => (takeWhile1P (fun c => c != '<') k).pmap String.mk)
    (fun k =>
      match precededP (tagP ['<', 'U']) (terminatedP hexDigit1P (charP '>')) k with
      | .ok rest digits =>
        match hexValue digits with
        | none => .err                  -- map_res: u32 overflow
        | some n =>
          match charFromU32 n with
          | none => .err                -- map_opt: invalid code point
          | some c => .ok rest (String.mk [c])
      | .err => .err
      | .fail => .fail) j

/-- `unescape_unicode`. -/
def unescape_unicode (i : List Char) : PRes String :=
  (many0P uniChunk i).pmap String.join

/-- `sp`: inline skip (spaces/tabs, inline comment stopped by line end or
the escape character, or an escaped single character). -/
def sp (escape_char comment_char : Char) (i : List Char) : PRes (List (List Char)) :=
  many0P (altP (altP space1P
      (precededP (charP comment_char)
        (takeWhileP (fun c => !(c == '\n' || c == '\r') && !(c == escape_char)))))
      (precededP (charP escape_char) (takeP 1))) i

/-- `integer`: a run of characters from `-0123456789`. -/
def integerChars : List Char := ['-', '0', '1', '2', '3', '4', '5', '6', '7', '8', '9']

def integer : List Char → PRes (List Char) :=
  takeWhile1P (fun c => c ∈ integerChars)

/-- `i64::from_str_radix(s, 10)`: optional sign, at least one digit, all
decimal digits, result within the `i64` range. -/
def decGo : Nat → List Char → Option Nat
  | acc, [] => some acc
  | acc, c :: t =>
    if '0' ≤ c ∧ c ≤ '9' then decGo (acc * 10 + (c.toNat - '0'.toNat)) t else none

def rustParseI64 : List Char → Option Int
  | '-' :: rest =>
    match rest, decGo 0 rest with
    | _ :: _, some n => if (n : Int) ≤ 2 ^ 63 then some (-(n : Int)) else none
    | _, _ => none
  | '+' :: rest =>
    match rest, decGo 0 rest with
    | _ :: _, some n => if (n : Int) < 2 ^ 63 then some (n : Int) else none
    | _, _ => none
  | cs =>
    match cs, decGo 0 cs with
    | _ :: _, some n => if (n : Int) < 2 ^ 63 then some (n : Int) else none
    | _, _ => none

/-- `parse_key`. -/
def keyChars : List Char := "abcdefghijklmnopqrstuvwxyz0123456789_-".toList

def parse_key : List Char → PRes String :=
  altP (altP
    (fun i => (takeWhile1P (fun c => c ∈ keyChars) i).pmap String.mk)
    (fun i =>
      (precededP (charP '<')
        (terminatedP (takeWhile1P (fun c => c != '>')) (charP '>')) i).pmap String.mk))
    (fun i => (altP (tagP ['.', '.']) (tagP "UNDEFINED".toList) i).pmap String.mk)

/-- `parse_raw`. -/
def rawStop : List Char := [' ', '\t', '\r', '\n', ';']

def parse_raw (escape_char comment_char : Char) (i : List Char) : PRes String :=
  foldMany1StrP (fun j => (altP
      (takeWhile1P (fun c =>
        !(c ∈ rawStop) && !(c == comment_char) && !(c == escape_char)))
      (precededP (charP escape_char) (takeP 1)) j).pmap String.mk) i

/-- The chunk alternative of `parse_str` (generate-api version): a run
without escape/quote, an escape-newline line continuation (yielding the
empty chunk), or an escaped single character. -/
def parse_str_chunk (escape_char : Char) (j : List Char) : PRes (List Char) :=
  altP (altP
      (takeWhile1P (fun c => !(c == escape_char) && !(c == '"')))
      (fun k => (precededP (charP escape_char) (charP '\n') k).pmap
        (fun _ => ([] : List Char))))
      (precededP (charP escape_char) (takeP 1)) j

/-- nom `map_parser` of a chunk parser into `unescape_unicode`: the chunk's
own leftover input is consumed, and whatever `unescape_unicode` leaves of
the chunk is discarded. -/
def unescapedChunk (chunk : List Char → PRes (List Char)) (j : List Char) : PRes String :=
  match chunk j with
  | .ok rest cs =>
    match unescape_unicode cs with
    | .ok _ s => .ok rest s
    | .err => .err
    | .fail => .fail
  | .err => .err
  | .fail => .fail

/-- `parse_str` (generate-api version, with the escape-newline line
continuation). -/
def parse_str (escape_char : Char) (i : List Char) : PRes String :=
  foldMany0StrP (unescapedChunk (parse_str_chunk escape_char)) i

/-- The chunk alternative of the `parse_str` duplicated in `src/build.rs`:
identical except that it lacks the escape-newline (line continuation)
alternative. -/
def build_parse_str_chunk (escape_char : Char) (j : List Char) : PRes (List Char) :=
  altP
    (takeWhile1P (fun c => !(c == escape_char) && !(c == '"')))
    (precededP (charP escape_char) (takeP 1)) j

/-- `parse_str` as duplicated in `src/build.rs`. -/
def build_parse_str (escape_char : Char) (i : List Char) : PRes String :=
  foldMany0StrP (unescapedChunk (build_parse_str_chunk escape_char)) i

/-- `string`: `""` short-circuits to the empty string, otherwise the body is
parsed under `cut`, so a missing closing quote is an unrecoverable failure. -/
def string (escape_char : Char) : List Char → PRes String :=
  altP (fun i => (tagP ['"', '"'] i).pmap (fun _ => ""))
    (precededP (charP '"')
      (cutP (terminatedP (parse_str escape_char) (charP '"'))))

/-- One `comment_char`/`escape_char` declaration line. -/
def special_kv : List Char → PRes (List Char × Char) :=
  separatedPairP
    (precededP multispace0P
      (altP (tagP "comment_char".toList) (tagP "escape_char".toList)))
    space1P anycharP

/-- `parse_special_chars`: exactly two declaration lines (either order,
duplicates allowed), starting from defaults `('%', '/')`.  Returns
`(comment_char, escape_char)`. -/
def parse_special_chars (i : List Char) : PRes (Char × Char) :=
  match special_kv i with
  | .ok i1 kv1 =>
    match special_kv i1 with
    | .ok i2 kv2 =>
      let p0 := ('%', '/')
      let p1 := if kv1.1 = "comment_char".toList then (kv1.2, p0.2) else (p0.1, kv1.2)
      let p2 := if kv2.1 = "comment_char".toList then (kv2.2, p1.2) else (p1.1, kv2.2)
      .ok i2 p2
    | .err => .err
    | .fail => .fail
  | .err => .err
  | .fail => .fail

/-- `value`: ordered alternative `Integer` / `String` / `Raw` after inline
skip; an integer literal that fails `i64` conversion falls through to the
later alternatives. -/
def value (escape_char comment_char : Char) (i : List Char) : PRes Value :=
  precededP (sp escape_char comment_char)
    (altP (altP
      (fun j =>
        match integer j with
        | .ok rest cs =>
          match rustParseI64 cs with
          | some n => .ok rest (Value.Integer n)
          | none => .err
        | .err => .err
        | .fail => .fail)
      (fun j => (string escape_char j).pmap Value.Str))
      (fun j => (parse_raw escape_char comment_char j).pmap Value.Raw)) i

/-- `key_value`: a key with separated values, or a bare key with no values. -/
def key_value (escape_char comment_char : Char) (i : List Char) :
    PRes (String × List (Option Value)) :=
  altP
    (separatedPairP
      (precededP (sp_comment comment_char) parse_key)
      (many1P (altP space1P (precededP (charP escape_char) (takeP 1))))
      (separatedListP (oneOfP [';', ' ', '\t']) (optP (value escape_char comment_char))))
    (fun j => (precededP (sp_comment comment_char) parse_key j).pmap (fun k => (k, [])))
    i
where
  /-- `sp_comment`: whitespace or comment-to-end-of-line runs. -/
  sp_comment (comment_char : Char) (i : List Char) : PRes (List (List Char)) :=
    many0P (altP (precededP (charP comment_char) notLineEndingP) multispace1P) i

/-- `parser::Object`: one parsed category. -/
structure Object where
  name : String
  values : List (String × List Value)
deriving DecidableEq, Repr

/-- `parse_object_head`: an uppercase/underscore category name. -/
def headChars : List Char := "ABCDEFGHIJKLMNOPQRSTUVWXYZ_".toList

def parse_object_head : List Char → PRes (List Char) :=
  takeWhile1P (fun c => c ∈ headChars)

/-- `object`: name, fields, then the dynamically-built `END <name>` tag. -/
def object (escape_char comment_char : Char) (i : List Char) : PRes Object :=
  match precededP (key_value.sp_comment comment_char) parse_object_head i with
  | .ok i1 name =>
    match precededP multispace0P (many0P (key_value escape_char comment_char)) i1 with
    | .ok i2 values =>
      match precededP (key_value.sp_comment comment_char)
          (terminatedP (tagP ('E' :: 'N' :: 'D' :: ' ' :: name)) multispace0P) i2 with
      | .ok i3 _ =>
        .ok i3 { name := String.mk name,
                 values := values.map (fun kv => (kv.1, kv.2.filterMap id)) }
      | .err => .err
      | .fail => .fail
    | .err => .err
    | .fail => .fail
  | .err => .err
  | .fail => .fail

/-- The `while` loop of `parse_locale`: parse objects until the input is
exhausted; on an object failure (recoverable or not) the remaining input
must be all whitespace/comments, otherwise the whole parse errors. -/
def parseLocaleGo (escape_char comment_char : Char) :
    Nat → List Char → List Object → PRes (List Object)
  | 0, _, _ => .fail
  | fuel + 1, i, acc =>
    if i.isEmpty then .ok i acc.reverse
    else
      match object escape_char comment_char i with
      | .ok i1 o => parseLocaleGo escape_char comment_char fuel i1 (o :: acc)
      | _ =>
        match allConsumingP (key_value.sp_comment comment_char) i with
        | .ok rest _ => .ok rest acc.reverse
        | .err => .err
        | .fail => .fail

/-- `parse_locale`: optional preamble (falling back to comment `#`, escape
`'\0'`), then the object loop. -/
def parse_locale (i : List Char) : PRes (List Object) :=
  match optP parse_special_chars i with
  | .ok i1 sc =>
    let cs := sc.getD ('#', Char.ofNat 0)
    parseLocaleGo cs.2 cs.1 (i1.length + 1) i1 []
  | .err => .err
  | .fail => .fail

/-- `parse`: the public entry point (`anyhow::Result` modelled as `Option`). -/
def parse (input : String) : Option (List Object) :=
  match parse_locale input.toList with
  | .ok _ objects => some objects
  | _ => none

end Parser

section ParserSanity

open Parser

example : string '/' "\"<U00E9>\"".toList = .ok [] "é" := rfl
example : string '/' "\"<UGGGG>\"".toList = .ok [] "" := rfl
example : string '/' "\"a\"".toList = .ok [] "a" := rfl
example : string '/' "\"ab".toList = .fail := rfl
example : key_value '/' '%' "am_pm \"\";\"\"".toList =
    .ok [] ("am_pm", [some (.Str ""), some (.Str "")]) := rfl
example : value '/' '%' "-42".toList = .ok [] (.Integer (-42)) := rfl
example : value '/' '%' "9223372036854775808".toList =
    .ok [] (.Raw "9223372036854775808") := rfl
example : parse "comment_char %\nescape_char /\nLC_TIME\nd_fmt \"%d\"\nfirst_weekday 2\nEND LC_TIME\n" =
    some [⟨"LC_TIME", [("d_fmt", [.Str "%d"]), ("first_weekday", [.Integer 2])]⟩] := rfl

end ParserSanity

/-!
Part 2: a shallow embedding of the schema unifier
(`src/generate-api/src/generator.rs`).  Rust `BTreeMap<String, _>` values
are modelled as association lists kept sorted by the same key order
(`smInsert` inserts in order, replacing an existing binding); Rust's
`String` ordering is byte-wise lexicographic on the UTF-8 encoding, which
coincides with the code-point lexicographic order `keyLt` used here.
`CodeGenerator::new` can panic (`assert_eq!`/`panic!`/`unimplemented!`), so
its model returns an `Option`.
-/

/-- Code-point lexicographic order on character lists (the order of Rust's
`String: Ord`). -/
def charsLt : List Char → List Char → Bool
  | [], [] => false
  | [], _ :: _ => true
  | _ :: _, [] => false
  | a :: as, b :: bs =>
    if a.toNat < b.toNat then true
    else if b.toNat < a.toNat then false
    else charsLt as bs

def keyLt (a b : String) : Bool := charsLt a.toList b.toList

def keyLe (a b : String) : Bool := !(keyLt b a)

/-- A `BTreeMap<String, α>` as a key-sorted association list. -/
abbrev SMap (α : Type) := List (String × α)

def smLookup {α : Type} (m : SMap α) (k : String) : Option α :=
  match m with
  | [] => none
  | (k2, v) :: t => if k = k2 then some v else smLookup t k

def smInsert {α : Type} (k : String) (v : α) : SMap α → SMap α
  | [] => [(k, v)]
  | (k2, v2) :: t =>
    if keyLt k k2 then (k, v) :: (k2, v2) :: t
    else if k = k2 then (k, v) :: t
    else (k2, v2) :: smInsert k v t

/-- Rust `str::replace` (leftmost, non-overlapping); all patterns used in
the source are nonempty, and the fuel (more than the input length) never
runs out for them. -/
def replaceGo (pat rep : List Char) : Nat → List Char → List Char
  | 0, l => l
  | _ + 1, [] => []
  | fuel + 1, c :: rest =>
    if pat.isPrefixOf (c :: rest) then
      rep ++ replaceGo pat rep fuel ((c :: rest).drop pat.length)
    else c :: replaceGo pat rep fuel rest

def rustReplace (s pat rep : String) : String :=
  String.mk (replaceGo pat.toList rep.toList (s.toList.length + 1) s.toList)

/-- Rust `str::to_uppercase`, restricted to the ASCII mapping (the keys
normalised in this code are ASCII). -/
def asciiUpper (s : String) : String := String.mk (s.toList.map Char.toUpper)

def apostrophe : String := String.mk [Char.ofNat 39]

/-- The key normalisation chain of `CodeGenerator::new`. -/
def normalizeKey (k : String) : String :=
  asciiUpper (rustReplace (rustReplace (rustReplace (rustReplace (rustReplace
    (rustReplace (rustReplace k apostrophe "") "\"" "") "-" "_") "=" "eq")
    "<" "lt") ".." "dotdot") "2" "two")

namespace Generator

/-- `generator::Type` (`Str` is the source's `Type::String`). -/
inductive Ty where
  | Str
  | Integer
deriving DecidableEq, Repr

/-- `generator::ContainerType`. -/
inductive ContainerType where
  | Singleton
  | Array
  | Array2D
deriving DecidableEq, Repr

def ContainerType.into_array : ContainerType → ContainerType
  | .Singleton => .Array
  | c => c

def ContainerType.into_array_2d : ContainerType → ContainerType
  | .Singleton => .Array2D
  | .Array => .Array2D
  | c => c

/-- `generator::Meta`. -/
structure Meta where
  optional : Bool
  container_ty : ContainerType
  ty : Option Ty
deriving DecidableEq, Repr

def Meta.new : Meta := { optional := false, container_ty := .Singleton, ty := none }

def Meta.mark_str (m : Meta) : Meta :=
  { m with ty := match m.ty with
      | some .Integer => some .Str
      | some .Str => some .Str
      | none => some .Str }

def Meta.mark_int (m : Meta) : Meta :=
  { m with ty := match m.ty with
      | some .Integer => some .Integer
      | some .Str => some .Str
      | none => some .Integer }

def Meta.make_optional (m : Meta) : Meta := { m with optional := true }

def Meta.mark_array (m : Meta) : Meta :=
  { m with container_ty := m.container_ty.into_array }

def Meta.mark_array_2d (m : Meta) : Meta :=
  { m with container_ty := m.container_ty.into_array_2d }

/-- The five mutations `CodeGenerator::new` applies to a `Meta`. -/
inductive MarkOp where
  | mark_str
  | mark_int
  | make_optional
  | mark_array
  | mark_array_2d
deriving DecidableEq, Repr

def applyMark : MarkOp → Meta → Meta
  | .mark_str, m => m.mark_str
  | .mark_int, m => m.mark_int
  | .make_optional, m => m.make_optional
  | .mark_array, m => m.mark_array
  | .mark_array_2d, m => m.mark_array_2d

def applyMarks (ms : List MarkOp) (m : Meta) : Meta :=
  ms.foldl (fun a op => applyMark op a) m

/-- `generator::Value`. -/
inductive Value where
  | Empty
  | Literal (s : String)
  | Array (xs : List String)
  | Array2d (xss : List (List String))
deriving DecidableEq, Repr

/-- `generator::Category`. -/
inductive Category where
  | Link (lang : String) (cat : String)
  | Fields (fields : SMap Value)
deriving DecidableEq, Repr

/-- Stable insertion sort: the same result as Rust's stable
`Itertools::sorted_by`. -/
def insertSortedBy {α : Type} (le : α → α → Bool) (x : α) : List α → List α
  | [] => [x]
  | y :: t => if le x y then x :: y :: t else y :: insertSortedBy le x t

def stableSortBy {α : Type} (le : α → α → Bool) : List α → List α
  | [] => []
  | x :: t => insertSortedBy le x (stableSortBy le t)

/-- `Itertools::group_by` on the (already sorted) entry list: consecutive
entries with equal keys are collected into one group of value runs. -/
def groupRuns : List (String × List Parser.Value) → List (String × List (List Parser.Value))
  | [] => []
  | (k, v) :: t =>
    match groupRuns t with
    | [] => [(k, [v])]
    | (k2, g) :: rest =>
      if k = k2 then (k2, v :: g) :: rest else (k, [v]) :: (k2, g) :: rest

/-- The grouping pipeline of `CodeGenerator::new`: drop entries with no
values, stable-sort by the original key, group consecutive equal keys. -/
def groupedValues (values : List (String × List Parser.Value)) :
    List (String × List (List Parser.Value)) :=
  groupRuns (stableSortBy (fun a b => keyLe a.1 b.1) (values.filter (fun x => !x.2.isEmpty)))

def markOf (v : Parser.Value) : MarkOp :=
  match v with
  | .Raw _ | .Str _ => .mark_str
  | .Integer _ => .mark_int

/-- `Itertools::all_equal` on type tags. -/
def tagsAllEqual (l : List Nat) : Bool :=
  match l with
  | [] => true
  | x :: t => t.all (fun y => y = x)

/-- The arity/type classification of one key's group of value runs in
`CodeGenerator::new`; `none` is the `unimplemented!()` (mixed types) panic.
The returned `MarkOp` list records the `Meta` mutations in source order. -/
def classifyGroup (group : List (List Parser.Value)) : Option (Value × List MarkOp) :=
  match group with
  | [[]] => some (.Empty, [.make_optional])
  | [[v]] => some (.Literal v.display, [markOf v])
  | [v0 :: vrest] =>
    if tagsAllEqual ((v0 :: vrest).map Parser.Value.tag) then
      some (.Array ((v0 :: vrest).map Parser.Value.display), [.mark_array, markOf v0])
    else none
  | groups =>
    if tagsAllEqual ((groups.map (fun vs => vs.map Parser.Value.tag)).flatten) then
      some (.Array2d (groups.map (fun vs => vs.map Parser.Value.display)),
        .mark_array_2d :: (groups.map (fun vs => vs.map markOf)).flatten)
    else none

/-- The per-group loop of `CodeGenerator::new`: build the locale's field
table and update the category's field metadata. -/
def buildFields : List (String × List (List Parser.Value)) → SMap Value → SMap Meta →
    Option (SMap Value × SMap Meta)
  | [], fields, catMeta => some (fields, catMeta)
  | (key0, group) :: rest, fields, catMeta =>
    let key := normalizeKey key0
    match classifyGroup group with
    | none => none
    | some (gv, marks) =>
      buildFields rest (smInsert key gv fields)
        (smInsert key (applyMarks marks ((smLookup catMeta key).getD Meta.new)) catMeta)

/-- The categories skipped outright by `CodeGenerator::new`. -/
def skipCategory (name : String) : Bool :=
  name = "LC_COLLATE" || name = "LC_CTYPE" || name = "LC_MEASUREMENT" ||
  name = "LC_PAPER" || name = "LC_NAME"

/-- Processing of one parsed object in the first pass of
`CodeGenerator::new`: skip list, single-entry categories (`copy` becomes a
`Link`, any other single entry is skipped), otherwise a genuine `Fields`
table.  `none` models the `assert_eq!`/`panic!`/`unimplemented!` panics. -/
def processObject (cats : SMap Category) (fm : SMap (SMap Meta)) (obj : Parser.Object) :
    Option (SMap Category × SMap (SMap Meta)) :=
  if skipCategory obj.name then some (cats, fm)
  else
    match obj.values with
    | [(key, value)] =>
      if key = "copy" then
        match value with
        | [Parser.Value.Str x] =>
          some (smInsert obj.name (Category.Link (rustReplace x "@" "_") obj.name) cats, fm)
        | _ => none
      else some (cats, fm)
    | vals =>
      match buildFields (groupedValues vals) [] ((smLookup fm obj.name).getD []) with
      | none => none
      | some (fields, catMeta) =>
        some (smInsert obj.name (Category.Fields fields) cats,
          smInsert obj.name catMeta fm)

def processObjects : List Parser.Object → SMap Category → SMap (SMap Meta) →
    Option (SMap Category × SMap (SMap Meta))
  | [], cats, fm => some (cats, fm)
  | o :: rest, cats, fm =>
    match processObject cats fm o with
    | none => none
    | some (c, f) => processObjects rest c f

/-- `generator::CodeGenerator`. -/
structure CodeGenerator where
  by_language : SMap (SMap Category)
  field_metadata : SMap (SMap Meta)
  normalized_langs : SMap String
deriving DecidableEq, Repr

/-- One iteration of the first (per-locale) pass of `CodeGenerator::new`. -/
def processLocale (st : CodeGenerator) (lang : String) (objs : List Parser.Object) :
    Option CodeGenerator :=
  match processObjects objs ((smLookup st.by_language lang).getD []) st.field_metadata with
  | none => none
  | some (cats, fm) =>
    some { by_language := smInsert lang cats st.by_language,
           field_metadata := fm,
           normalized_langs :=
             smInsert lang (rustReplace lang "@" "_") st.normalized_langs }

def pass1Go : CodeGenerator → List (String × List Parser.Object) → Option CodeGenerator
  | st, [] => some st
  | st, (lang, objs) :: rest =>
    match processLocale st lang objs with
    | none => none
    | some st2 => pass1Go st2 rest

/-- The inner loop of the second pass: for each canonical field missing from
the locale's table, insert `Value::Empty` and mark the metadata optional. -/
def unifyFields (fields : SMap Value) : List (String × Meta) → SMap Value × List (String × Meta)
  | [] => (fields, [])
  | (k, m) :: rest =>
    match smLookup fields k with
    | none =>
      let r := unifyFields (smInsert k Value.Empty fields) rest
      (r.1, (k, m.make_optional) :: r.2)
    | some _ =>
      let r := unifyFields fields rest
      (r.1, (k, m) :: r.2)

def unifyCategory : Category → SMap Meta → Category × SMap Meta
  | Category.Link a b, metas => (Category.Link a b, metas)
  | Category.Fields fields, metas =>
    let r := unifyFields fields metas
    (Category.Fields r.1, r.2)

/-- The second pass of `CodeGenerator::new` for one locale: iterate the
field metadata, creating the category (`or_insert` with an empty `Fields`)
and filling in missing fields. -/
def pass2LangGo : SMap Category → SMap (SMap Meta) → List (String × SMap Meta) →
    SMap Category × SMap (SMap Meta)
  | cats, fm, [] => (cats, fm)
  | cats, fm, (c, metas) :: rest =>
    let cat := (smLookup cats c).getD (Category.Fields [])
    let r := unifyCategory cat metas
    pass2LangGo (smInsert c r.1 cats) (smInsert c r.2 fm) rest

def pass2Lang (cats : SMap Category) (fm : SMap (SMap Meta)) :
    SMap Category × SMap (SMap Meta) :=
  pass2LangGo cats fm fm

/-- The second pass of `CodeGenerator::new` over all locales (iterated in
`BTreeMap` order, i.e. the order of the sorted association list). -/
def pass2Go : SMap (SMap Category) → SMap (SMap Meta) → List (String × SMap Category) →
    SMap (SMap Category) × SMap (SMap Meta)
  | bl, fm, [] => (bl, fm)
  | bl, fm, (lang, cats) :: rest =>
    let r := pass2Lang cats fm
    pass2Go (smInsert lang r.1 bl) r.2 rest

def pass2 (st : CodeGenerator) : CodeGenerator :=
  let r := pass2Go st.by_language st.field_metadata st.by_language
  { st with by_language := r.1, field_metadata := r.2 }

/-- `CodeGenerator::new`, with the input `HashMap<String, Vec<Object>>`
modelled as an association list in iteration order (keys distinct). -/
def CodeGenerator.new (input : List (String × List Parser.Object)) : Option CodeGenerator :=
  (pass1Go { by_language := [], field_metadata := [], normalized_langs := [] } input).map pass2

end Generator


/-!
Part 3: helper lemmas about the key order and the sorted-map operations.
-/

theorem charsLt_irrefl (l : List Char) : charsLt l l = false := by
  induction l with
  | nil => rfl
  | cons a t ih => simp [charsLt, ih]

theorem keyLt_irrefl (s : String) : keyLt s s = false := charsLt_irrefl _

theorem charsLt_asymm : ∀ {l1 l2 : List Char}, charsLt l1 l2 = true → charsLt l2 l1 = false
  | [], [], h => by simp [charsLt] at h
  | [], _ :: _, _ => by simp [charsLt]
  | _ :: _, [], h => by simp [charsLt] at h
  | a :: t1, b :: t2, h => by
    by_cases hab : a.toNat < b.toNat
    · simp [charsLt, hab, Nat.lt_asymm hab]
    · by_cases hba : b.toNat < a.toNat
      · simp [charsLt, hab, hba] at h
      · have ht : charsLt t1 t2 = true := by simpa [charsLt, hab, hba] using h
        simp [charsLt, hab, hba, charsLt_asymm ht]

theorem charsLt_eq_of_not :
    ∀ {l1 l2 : List Char}, charsLt l1 l2 = false → charsLt l2 l1 = false → l1 = l2
  | [], [], _, _ => rfl
  | [], _ :: _, h, _ => by simp [charsLt] at h
  | _ :: _, [], _, h => by simp [charsLt] at h
  | a :: t1, b :: t2, h1, h2 => by
    by_cases hab : a.toNat < b.toNat
    · simp [charsLt, hab] at h1
    · by_cases hba : b.toNat < a.toNat
      · simp [charsLt, hba] at h2
      · have hn : a.toNat = b.toNat := Nat.le_antisymm (Nat.le_of_not_lt hba) (Nat.le_of_not_lt hab)
        have hc : a = b := Char.ext (UInt32.ext hn)
        have ht1 : charsLt t1 t2 = false := by simpa [charsLt, hab, hba] using h1
        have ht2 : charsLt t2 t1 = false := by simpa [charsLt, hab, hba] using h2
        rw [hc, charsLt_eq_of_not ht1 ht2]

theorem charsLt_trans :
    ∀ {l1 l2 l3 : List Char}, charsLt l1 l2 = true → charsLt l2 l3 = true → charsLt l1 l3 = true
  | [], _, _ :: _, _, _ => by simp [charsLt]
  | [], [], [], h, _ => by simp [charsLt] at h
  | [], _ :: _, [], _, h => by simp [charsLt] at h
  | _ :: _, [], _, h, _ => by simp [charsLt] at h
  | _ :: _, _ :: _, [], _, h => by simp [charsLt] at h
  | a :: t1, b :: t2, c :: t3, h1, h2 => by
    by_cases hab : a.toNat < b.toNat
    · by_cases hbc : b.toNat < c.toNat
      · simp [charsLt, Nat.lt_trans hab hbc]
      · by_cases hcb : c.toNat < b.toNat
        · simp [charsLt, hbc, hcb] at h2
        · have hbceq : b.toNat = c.toNat := Nat.le_antisymm (Nat.le_of_not_lt hcb) (Nat.le_of_not_lt hbc)
          simp [charsLt, hbceq ▸ hab]
    · by_cases hba : b.toNat < a.toNat
      · simp [charsLt, hab, hba] at h1
      · have heq : a.toNat = b.toNat := Nat.le_antisymm (Nat.le_of_not_lt hba) (Nat.le_of_not_lt hab)
        have ht1 : charsLt t1 t2 = true := by simpa [charsLt, hab, hba] using h1
        by_cases hbc : b.toNat < c.toNat
        · simp [charsLt, heq ▸ hbc]
        · by_cases hcb : c.toNat < b.toNat
          · simp [charsLt, hbc, hcb] at h2
          · have ht2 : charsLt t2 t3 = true := by simpa [charsLt, hbc, hcb] using h2
            have hac : ¬ a.toNat < c.toNat := by omega
            have hca : ¬ c.toNat < a.toNat := by omega
            simp [charsLt, hac, hca, charsLt_trans ht1 ht2]

theorem keyLt_asymm {a b : String} (h : keyLt a b = true) : keyLt b a = false :=
  charsLt_asymm h

theorem keyLt_eq_of_not {a b : String} (h1 : keyLt a b = false) (h2 : keyLt b a = false) :
    a = b := by
  have h3 : a.toList = b.toList := charsLt_eq_of_not h1 h2
  cases a; cases b
  exact congrArg String.mk h3

theorem keyLt_trans {a b c : String} (h1 : keyLt a b = true) (h2 : keyLt b c = true) :
    keyLt a c = true :=
  charsLt_trans h1 h2

theorem keyLt_total_of_ne {a b : String} (h : a ≠ b) (h1 : keyLt a b = false) :
    keyLt b a = true := by
  cases h2 : keyLt b a with
  | true => rfl
  | false => exact absurd (keyLt_eq_of_not h1 h2) h

theorem smLookup_insert_self {α : Type} (k : String) (v : α) (m : SMap α) :
    smLookup (smInsert k v m) k = some v := by
  induction m with
  | nil => simp [smInsert, smLookup]
  | cons e t ih =>
    by_cases h1 : keyLt k e.1
    · simp [smInsert, h1, smLookup]
    · by_cases h2 : k = e.1
      · subst h2
        simp [smInsert, h1, smLookup]
      · simp [smInsert, h1, h2, smLookup, ih]

theorem smLookup_insert_ne {α : Type} (k : String) (v : α) (m : SMap α) (k2 : String)
    (h : k2 ≠ k) : smLookup (smInsert k v m) k2 = smLookup m k2 := by
  induction m with
  | nil => simp [smInsert, smLookup, h]
  | cons e t ih =>
    by_cases h1 : keyLt k e.1
    · simp [smInsert, h1, smLookup, h]
    · by_cases h2 : k = e.1
      · subst h2
        simp [smInsert, h1, smLookup, h]
      · simp [smInsert, h1, h2, smLookup, ih]

theorem smInsert_insert_self {α : Type} (k : String) (v1 v2 : α) (m : SMap α) :
    smInsert k v1 (smInsert k v2 m) = smInsert k v1 m := by
  induction m with
  | nil => simp [smInsert, keyLt_irrefl]
  | cons e t ih =>
    by_cases h1 : keyLt k e.1
    · simp [smInsert, h1, keyLt_irrefl]
    · by_cases h2 : k = e.1
      · subst h2
        simp [smInsert, h1, keyLt_irrefl]
      · simp [smInsert, h1, h2, ih]

theorem smInsert_comm {α : Type} (k1 k2 : String) (v1 v2 : α) (m : SMap α) (h : k1 ≠ k2) :
    smInsert k1 v1 (smInsert k2 v2 m) = smInsert k2 v2 (smInsert k1 v1 m) := by
  induction m with
  | nil =>
    by_cases h12 : keyLt k1 k2
    · simp [smInsert, h12, keyLt_asymm h12, h, Ne.symm h]
    · have h21 := keyLt_total_of_ne h (by simpa using h12)
      simp [smInsert, h12, h21, h, Ne.symm h]
  | cons e t ih =>
    by_cases hk1 : keyLt k1 e.1 <;> by_cases hk2 : keyLt k2 e.1
    · by_cases h12 : keyLt k1 k2
      · simp [smInsert, hk1, hk2, h12, keyLt_asymm h12, h, Ne.symm h]
      · have h21 := keyLt_total_of_ne h (by simpa using h12)
        simp [smInsert, hk1, hk2, h12, h21, h, Ne.symm h]
    · by_cases h2e : k2 = e.1
      · subst h2e
        simp [smInsert, hk1, hk2, h, Ne.symm h, keyLt_irrefl, keyLt_asymm hk1]
      · have h2gt := keyLt_total_of_ne h2e (by simpa using hk2)
        have h12 : keyLt k1 k2 = true := keyLt_trans hk1 h2gt
        simp [smInsert, hk1, hk2, h2e, h12, keyLt_asymm h12, h, Ne.symm h]
    · by_cases h1e : k1 = e.1
      · subst h1e
        simp [smInsert, hk1, hk2, h, Ne.symm h, keyLt_irrefl, keyLt_asymm hk2]
      · have h1gt := keyLt_total_of_ne h1e (by simpa using hk1)
        have h21 : keyLt k2 k1 = true := keyLt_trans hk2 h1gt
        simp [smInsert, hk1, hk2, h1e, h21, keyLt_asymm h21, h, Ne.symm h]
    · by_cases h1e : k1 = e.1
      · subst h1e
        simp [smInsert, hk1, hk2, h, Ne.symm h, keyLt_irrefl]
      · by_cases h2e : k2 = e.1
        · subst h2e
          simp [smInsert, hk1, hk2, h, Ne.symm h, keyLt_irrefl]
        · simp [smInsert, hk1, hk2, h1e, h2e, ih]

/-!
Part 4: small facts about lists and tokens used by several claims.
-/

theorem takeWhile_all {α : Type} {p : α → Bool} :
    ∀ {l : List α}, (∀ c ∈ l, p c = true) → l.takeWhile p = l := by
  intro l h
  induction l with
  | nil => rfl
  | cons a t ih =>
    rw [List.takeWhile_cons, h a (List.mem_cons_self _ _)]
    simp [ih (fun c hc => h c (List.mem_cons_of_mem _ hc))]

theorem dropWhile_all {α : Type} {p : α → Bool} :
    ∀ {l : List α}, (∀ c ∈ l, p c = true) → l.dropWhile p = [] := by
  intro l h
  induction l with
  | nil => rfl
  | cons a t ih =>
    rw [List.dropWhile_cons, h a (List.mem_cons_self _ _)]
    simp [ih (fun c hc => h c (List.mem_cons_of_mem _ hc))]

theorem stringJoin_singleton (s : String) : String.join [s] = s := by
  cases s
  rfl

theorem integerChars_not_space :
    ∀ c ∈ Parser.integerChars, (decide (c = ' ') || decide (c = '\t')) = false := by decide

theorem integerChars_not_quote : ∀ c ∈ Parser.integerChars, ¬ c = '"' := by decide

theorem integerChars_not_rawStop : ∀ c ∈ Parser.integerChars, c ∉ Parser.rawStop := by decide

/-!
Part 5: per-step monotonicity of the `Meta` mark operations (claim C3).
-/

theorem applyMark_fromArray (op : Generator.MarkOp) (m : Generator.Meta)
    (h : m.container_ty = .Array) :
    (Generator.applyMark op m).container_ty = .Array ∨
    (Generator.applyMark op m).container_ty = .Array2D := by
  cases op <;>
    simp [Generator.applyMark, Generator.Meta.mark_str, Generator.Meta.mark_int,
      Generator.Meta.make_optional, Generator.Meta.mark_array, Generator.Meta.mark_array_2d,
      Generator.ContainerType.into_array, Generator.ContainerType.into_array_2d, h]

theorem applyMark_from2D (op : Generator.MarkOp) (m : Generator.Meta)
    (h : m.container_ty = .Array2D) :
    (Generator.applyMark op m).container_ty = .Array2D := by
  cases op <;>
    simp [Generator.applyMark, Generator.Meta.mark_str, Generator.Meta.mark_int,
      Generator.Meta.make_optional, Generator.Meta.mark_array, Generator.Meta.mark_array_2d,
      Generator.ContainerType.into_array, Generator.ContainerType.into_array_2d, h]

theorem applyMark_tyStr (op : Generator.MarkOp) (m : Generator.Meta)
    (h : m.ty = some .Str) : (Generator.applyMark op m).ty = some .Str := by
  cases op <;>
    simp [Generator.applyMark, Generator.Meta.mark_str, Generator.Meta.mark_int,
      Generator.Meta.make_optional, Generator.Meta.mark_array, Generator.Meta.mark_array_2d, h]

/-- **C3** (confirmed).  The canonical field metadata widens monotonically
under any sequence of mark operations: once `container_ty` is `Array` it can
only stay `Array` or widen to `Array2D` (never return to `Singleton`); once
it is `Array2D` it never changes; and once the scalar type is `String`
(`Ty.Str`), no later observation (in particular `mark_int`) changes it back
to `Integer`. -/
theorem claim_C3_metadata_widens_monotonically
    (ms : List Generator.MarkOp) (m : Generator.Meta) :
    (m.container_ty = .Array →
      (Generator.applyMarks ms m).container_ty = .Array ∨
      (Generator.applyMarks ms m).container_ty = .Array2D) ∧
    (m.container_ty = .Array2D →
      (Generator.applyMarks ms m).container_ty = .Array2D) ∧
    (m.ty = some .Str → (Generator.applyMarks ms m).ty = some .Str) := by
  induction ms generalizing m with
  | nil => exact ⟨fun h => Or.inl h, fun h => h, fun h => h⟩
  | cons op rest ih =>
    have hfold : Generator.applyMarks (op :: rest) m =
        Generator.applyMarks rest (Generator.applyMark op m) := rfl
    rw [hfold]
    refine ⟨fun h => ?_, fun h => ?_, fun h => ?_⟩
    · rcases applyMark_fromArray op m h with h2 | h2
      · exact (ih _).1 h2
      · exact Or.inr ((ih _).2.1 h2)
    · exact (ih _).2.1 (applyMark_from2D op m h)
    · exact (ih _).2.2 (applyMark_tyStr op m h)

/-- Witness for C3 at a concrete metadata state and mark sequence. -/
theorem claim_C3_witness :
    (Generator.applyMarks [.mark_array_2d, .mark_int]
      { optional := false, container_ty := .Array, ty := some .Str }).container_ty =
        .Array ∨
    (Generator.applyMarks [.mark_array_2d, .mark_int]
      { optional := false, container_ty := .Array, ty := some .Str }).container_ty =
        .Array2D :=
  (claim_C3_metadata_widens_monotonically [.mark_array_2d, .mark_int]
    { optional := false, container_ty := .Array, ty := some .Str }).1 rfl

/-!
Part 6: claims about the string/value token parsers (C2, C7, C8).
-/

/-- **C2** (corrected).  A valid numeric escape `<U00E9>` inside a quoted
string decodes to the single character `é`.  An invalid escape, however,
does NOT make the parse fail: `unescape_unicode` is a `many0` loop that
simply stops at the invalid escape, and `map_parser` discards the
unconsumed remainder of the chunk, so `<UGGGG>` — and everything after it
in the same chunk — is silently dropped while the string parse succeeds. -/
theorem claim_C2_unicode_escape_decoding :
    Parser.string '/' "\"<U00E9>\"".toList = .ok [] "é" ∧
    Parser.string '/' "\"<UGGGG>\"".toList = .ok [] "" ∧
    Parser.string '/' "\"a<UGGGG>bc\"".toList = .ok [] "a" := ⟨rfl, rfl, rfl⟩

/-- Counterexample to C2 as stated: on the invalid escape `<UGGGG>` the
string parser succeeds (returning the empty string) instead of failing. -/
theorem claim_C2_counterexample :
    Parser.string '/' "\"<UGGGG>\"".toList = Parser.PRes.ok [] "" ∧
    Parser.string '/' "\"<UGGGG>\"".toList ≠ Parser.PRes.err ∧
    Parser.string '/' "\"<UGGGG>\"".toList ≠ Parser.PRes.fail :=
  ⟨rfl, by decide, by decide⟩

/-- **C7** (corrected).  A token of an optional minus sign followed by
decimal digits (any nonempty run over `-0123456789`) is parsed by `value`
as a signed 64-bit integer when `i64::from_str_radix` accepts it; but when
the literal overflows 64 bits (or is otherwise rejected), `map_res` yields
a recoverable error and the `alt` falls through to `parse_raw`, so the same
characters are accepted as `Value::Raw` — the parse does NOT fail. -/
theorem claim_C7_integer_token (esc com : Char) (cs : List Char)
    (hne : cs ≠ [])
    (hall : ∀ c ∈ cs, c ∈ Parser.integerChars)
    (hcom : com ∉ cs) (hesc : esc ∉ cs) :
    Parser.value esc com cs =
      match Parser.rustParseI64 cs with
      | some n => .ok [] (.Integer n)
      | none => .ok [] (.Raw (String.mk cs)) := by
  obtain ⟨c0, cs', rfl⟩ := List.exists_cons_of_ne_nil hne
  have hc0 : c0 ∈ Parser.integerChars := hall c0 (List.mem_cons_self _ _)
  have hcom0 : ¬ c0 = com := fun h => hcom (by rw [← h]; exact List.mem_cons_self _ _)
  have hesc0 : ¬ c0 = esc := fun h => hesc (by rw [← h]; exact List.mem_cons_self _ _)
  have hsp : Parser.sp esc com (c0 :: cs') = .ok (c0 :: cs') [] := by
    simp [Parser.sp, Parser.many0P, Parser.many0Go, Parser.altP, Parser.space1P,
      Parser.takeWhile1P, Parser.precededP, Parser.charP, List.takeWhile_cons,
      integerChars_not_space c0 hc0, hcom0, hesc0]
  have hAint : ∀ c ∈ (c0 :: cs'), decide (c ∈ Parser.integerChars) = true :=
    fun c hc => decide_eq_true (hall c hc)
  have hint : Parser.integer (c0 :: cs') = .ok [] (c0 :: cs') := by
    simp [Parser.integer, Parser.takeWhile1P, takeWhile_all hAint, dropWhile_all hAint]
  cases hr : Parser.rustParseI64 (c0 :: cs') with
  | some n =>
    simp [Parser.value, Parser.precededP, hsp, Parser.altP, hint, hr]
  | none =>
    have hq : ¬ c0 = '"' := integerChars_not_quote c0 hc0
    have hq2 : ¬ '"' = c0 := fun h => hq h.symm
    have hstr : Parser.string esc (c0 :: cs') = .err := by
      simp [Parser.string, Parser.altP, Parser.tagP, Parser.precededP, Parser.charP,
        List.isPrefixOf, hq, hq2, Parser.PRes.pmap]
    have hAraw : ∀ c ∈ (c0 :: cs'),
        (!(decide (c ∈ Parser.rawStop)) && !(c == com) && !(c == esc)) = true := by
      intro c hc
      have h1 : c ∉ Parser.rawStop := integerChars_not_rawStop c (hall c hc)
      have h2 : ¬ c = com := fun h => hcom (by rw [← h]; exact hc)
      have h3 : ¬ c = esc := fun h => hesc (by rw [← h]; exact hc)
      simp [h1, h2, h3]
    have hraw : Parser.parse_raw esc com (c0 :: cs') = .ok [] (String.mk (c0 :: cs')) := by
      simp [Parser.parse_raw, Parser.foldMany1StrP, Parser.altP, Parser.takeWhile1P,
        takeWhile_all hAraw, dropWhile_all hAraw, Parser.many0Go, Parser.precededP,
        Parser.charP, Parser.PRes.pmap, stringJoin_singleton]
    simp [Parser.value, Parser.precededP, hsp, Parser.altP, hint, hr, hstr, hraw,
      Parser.PRes.pmap]

/-- Witness for C7: an in-range literal is parsed as `Integer`. -/
theorem claim_C7_witness :
    Parser.value '/' '%' "12".toList = .ok [] (.Integer 12) := by
  rw [claim_C7_integer_token '/' '%' "12".toList (by decide) (by decide) (by decide)
    (by decide)]
  rfl

/-- Counterexample to C7 as stated: `2^63` overflows `i64`, and `value`
accepts it as `Value::Raw` instead of failing. -/
theorem claim_C7_counterexample :
    Parser.value '/' '%' "9223372036854775808".toList =
      .ok [] (.Raw "9223372036854775808") ∧
    Parser.rustParseI64 "9223372036854775808".toList = none := ⟨rfl, rfl⟩

/-- **C8** (confirmed).  The field line `am_pm "";""` parses to the single
key `am_pm` with the two values `String("")`, `String("")`, and the
unifier classifies the pair as ONE field of arity `Array` (holding the two
formatted empty-string literals), not as two scalar fields.  (The category
below carries a second field because a category whose entry list has
length one is skipped entirely by `CodeGenerator::new`.) -/
theorem claim_C8_empty_string_pair_is_array :
    Parser.key_value '/' '%' "am_pm \"\";\"\"".toList =
      .ok [] ("am_pm", [some (.Str ""), some (.Str "")]) ∧
    Generator.CodeGenerator.new
      [("aa", [⟨"LC_TIME", [("am_pm", [.Str "", .Str ""]), ("d_fmt", [.Str "%d"])]⟩])] =
      some { by_language :=
               [("aa", [("LC_TIME", .Fields
                  [("AM_PM", .Array ["\"\"", "\"\""]),
                   ("D_FMT", .Literal "\"%d\"")])])],
             field_metadata :=
               [("LC_TIME",
                 [("AM_PM", { optional := false, container_ty := .Array, ty := some .Str }),
                  ("D_FMT", { optional := false, container_ty := .Singleton, ty := some .Str })])],
             normalized_langs := [("aa", "aa")] } := ⟨rfl, rfl⟩

/-!
Part 7: Link targets are not validated by `CodeGenerator::new` (claim C5).
-/

/-- Counterexample to C5 as stated: a `copy` Link to the locale `zz`, which
is not in the input set, does not make unification fail — `CodeGenerator::new`
succeeds and records a Link whose target is absent from `by_language`
(the emitted `pub use super::zz::LC_TIME;` would reference it). -/
theorem claim_C5_counterexample :
    Generator.CodeGenerator.new [("aa", [⟨"LC_TIME", [("copy", [.Str "zz"])]⟩])] =
      some { by_language := [("aa", [("LC_TIME", .Link "zz" "LC_TIME")])],
             field_metadata := [],
             normalized_langs := [("aa", "aa")] } ∧
    smLookup ([("aa", [("LC_TIME", Generator.Category.Link "zz" "LC_TIME")])] :
      SMap (SMap Generator.Category)) "zz" = none := ⟨rfl, rfl⟩

/-- **C5** (corrected).  `CodeGenerator::new` performs no "unknown locale"
check at all: a category whose single entry is `copy` with a single
`String` payload is recorded as a Link (its `@` replaced by `_`) and
unification succeeds even when the named target locale is absent from the
input set; the generated output then references the absent locale.  (The
"unknown locale" failure exists only in the legacy `src/build.rs`
generator.)  Only a `copy` entry with a non-`String` or multi-value payload
panics. -/
theorem claim_C5_link_target_unchecked (lang target name : String)
    (hskip : Generator.skipCategory name = false)
    (habs : rustReplace target "@" "_" ≠ lang) :
    Generator.CodeGenerator.new [(lang, [⟨name, [("copy", [.Str target])]⟩])] =
      some { by_language := [(lang, [(name, .Link (rustReplace target "@" "_") name)])],
             field_metadata := [],
             normalized_langs := [(lang, rustReplace lang "@" "_")] } ∧
    smLookup ([(lang, [(name, Generator.Category.Link (rustReplace target "@" "_") name)])] :
      SMap (SMap Generator.Category)) (rustReplace target "@" "_") = none := by
  constructor
  · simp [Generator.CodeGenerator.new, Generator.pass1Go, Generator.processLocale,
      Generator.processObjects, Generator.processObject, hskip, smLookup, smInsert,
      Generator.pass2, Generator.pass2Go, Generator.pass2Lang, Generator.pass2LangGo,
      keyLt_irrefl]
  · simp [smLookup, habs]

/-- Witness for C5 at concrete locales `aa` (present) and `bb` (absent). -/
theorem claim_C5_witness :
    Generator.CodeGenerator.new [("aa", [⟨"LC_TIME", [("copy", [.Str "bb"])]⟩])] =
      some { by_language :=
               [("aa", [("LC_TIME", .Link (rustReplace "bb" "@" "_") "LC_TIME")])],
             field_metadata := [],
             normalized_langs := [("aa", rustReplace "aa" "@" "_")] } ∧
    smLookup ([("aa", [("LC_TIME",
        Generator.Category.Link (rustReplace "bb" "@" "_") "LC_TIME")])] :
      SMap (SMap Generator.Category)) (rustReplace "bb" "@" "_") = none :=
  claim_C5_link_target_unchecked "aa" "bb" "LC_TIME" rfl (by decide)

/-!
Part 8: a missing preamble falls back to defaults (claim C6).
-/

/-- **C6** (confirmed).  When the preamble parser fails (no
`comment_char`/`escape_char` declarations at the head of the file),
`parse_locale` does not fail: `opt` discards the error and the body is
parsed by the object loop with comment character `#` and escape character
`'\0'` (no effective escape). -/
theorem claim_C6_missing_preamble_defaults (i : List Char)
    (h : Parser.parse_special_chars i = .err) :
    Parser.parse_locale i =
      Parser.parseLocaleGo (Char.ofNat 0) '#' (i.length + 1) i [] := by
  simp [Parser.parse_locale, Parser.optP, h]

/-- Witness for C6: a concrete preamble-less file; its body parses
successfully with the default comment/escape characters. -/
theorem claim_C6_witness :
    Parser.parse_special_chars "LC_TIME\nab \"x\"\nEND LC_TIME\n".toList = .err ∧
    Parser.parse_locale "LC_TIME\nab \"x\"\nEND LC_TIME\n".toList =
      Parser.parseLocaleGo (Char.ofNat 0) '#'
        ("LC_TIME\nab \"x\"\nEND LC_TIME\n".toList.length + 1)
        "LC_TIME\nab \"x\"\nEND LC_TIME\n".toList [] :=
  ⟨rfl, claim_C6_missing_preamble_defaults _ rfl⟩

/-!
Part 9: single-entry categories contribute nothing (claim C9).
-/

theorem processObject_single_entry_skip (cats : SMap Generator.Category)
    (fm : SMap (SMap Generator.Meta)) (obj : Parser.Object)
    (k : String) (v : List Parser.Value)
    (hv : obj.values = [(k, v)]) (hk : k ≠ "copy") :
    Generator.processObject cats fm obj = some (cats, fm) := by
  by_cases hs : Generator.skipCategory obj.name
  · simp [Generator.processObject, hs]
  · simp [Generator.processObject, hs, hv, hk]

theorem processObjects_middle_skip (before after : List Parser.Object)
    (obj : Parser.Object) (k : String) (v : List Parser.Value)
    (hv : obj.values = [(k, v)]) (hk : k ≠ "copy") :
    ∀ cats fm, Generator.processObjects (before ++ obj :: after) cats fm =
      Generator.processObjects (before ++ after) cats fm := by
  induction before with
  | nil =>
    intro cats fm
    simp [Generator.processObjects, processObject_single_entry_skip cats fm obj k v hv hk]
  | cons o rest ih =>
    intro cats fm
    simp only [List.cons_append, Generator.processObjects]
    cases Generator.processObject cats fm o with
    | none => rfl
    | some p => exact ih p.1 p.2

/-- **C9** (confirmed).  A parsed category whose value list has exactly one
key/value entry with a key other than the literal `copy` (this includes the
`include` alias and any genuine single-field category) is skipped entirely
by `CodeGenerator::new`: deleting the object from the input leaves the
whole result unchanged, so no `Fields` table is created from it and its one
field contributes nothing to the canonical schema. -/
theorem claim_C9_single_entry_category_skipped
    (pre post : List (String × List Parser.Object)) (lang : String)
    (before after : List Parser.Object) (obj : Parser.Object)
    (k : String) (v : List Parser.Value)
    (hv : obj.values = [(k, v)]) (hk : k ≠ "copy") :
    Generator.CodeGenerator.new (pre ++ (lang, before ++ obj :: after) :: post) =
    Generator.CodeGenerator.new (pre ++ (lang, before ++ after) :: post) := by
  suffices h : ∀ st, Generator.pass1Go st (pre ++ (lang, before ++ obj :: after) :: post) =
      Generator.pass1Go st (pre ++ (lang, before ++ after) :: post) by
    simp only [Generator.CodeGenerator.new, h]
  intro st
  induction pre generalizing st with
  | nil =>
    simp only [List.nil_append, Generator.pass1Go, Generator.processLocale,
      processObjects_middle_skip before after obj k v hv hk]
  | cons p rest ih =>
    obtain ⟨pl, po⟩ := p
    simp only [List.cons_append, Generator.pass1Go]
    cases Generator.processLocale st pl po with
    | none => rfl
    | some st2 => exact ih st2

/-- Witness for C9: a locale whose only category has a single non-`copy`
entry produces exactly the result of the empty locale. -/
theorem claim_C9_witness :
    Generator.CodeGenerator.new
      [("aa", [⟨"LC_MESSAGES", [("yesexpr", [.Str "y"])]⟩])] =
    Generator.CodeGenerator.new [("aa", [])] :=
  claim_C9_single_entry_category_skipped [] [] "aa" [] []
    ⟨"LC_MESSAGES", [("yesexpr", [.Str "y"])]⟩ "yesexpr" [.Str "y"] rfl (by decide)

/-!
Part 10: comparing the two `parse_str` duplicates (claim C10).
-/

/-- Whether the input contains an escape character immediately followed by
a newline — the line-continuation pattern that the two `parse_str`
duplicates treat differently. -/
def hasEscNl (esc : Char) : List Char → Bool
  | c1 :: c2 :: rest => (c1 = esc && c2 = '\n') || hasEscNl esc (c2 :: rest)
  | _ => false

theorem hasEscNl_tail (esc c : Char) (l : List Char) (h : hasEscNl esc (c :: l) = false) :
    hasEscNl esc l = false := by
  cases l with
  | nil => rfl
  | cons c2 t =>
    simp [hasEscNl] at h
    simpa [hasEscNl] using h.2

theorem hasEscNl_suffix (esc : Char) {l1 l2 : List Char} (hs : l2 <:+ l1)
    (h : hasEscNl esc l1 = false) : hasEscNl esc l2 = false := by
  obtain ⟨t, rfl⟩ := hs
  induction t with
  | nil => simpa using h
  | cons c t ih => exact ih (hasEscNl_tail esc c _ h)

theorem pmap_ok {α β : Type} {f : α → β} {r0 : Parser.PRes α} {rest : List Char} {v : β}
    (h : r0.pmap f = .ok rest v) : ∃ v0, r0 = .ok rest v0 := by
  cases r0 with
  | ok r1 v1 =>
    simp [Parser.PRes.pmap] at h
    exact ⟨v1, by rw [h.1]⟩
  | err => simp [Parser.PRes.pmap] at h
  | fail => simp [Parser.PRes.pmap] at h

theorem precededP_ok {α β : Type} {p : List Char → Parser.PRes α}
    {q : List Char → Parser.PRes β} {i rest : List Char} {v : β}
    (h : Parser.precededP p q i = .ok rest v) :
    ∃ r1 v1, p i = .ok r1 v1 ∧ q r1 = .ok rest v := by
  unfold Parser.precededP at h
  cases hp : p i with
  | ok r1 v1 => rw [hp] at h; exact ⟨r1, v1, rfl, h⟩
  | err => rw [hp] at h; cases h
  | fail => rw [hp] at h; cases h

theorem charP_ok {c : Char} {i rest : List Char} {v : Char}
    (h : Parser.charP c i = .ok rest v) : i = c :: rest := by
  cases i with
  | nil => cases h
  | cons c2 t =>
    by_cases hc : c2 = c
    · subst hc
      simp [Parser.charP] at h
      rw [h.1]
    · simp [Parser.charP, hc] at h

theorem takeP_ok {n : Nat} {i rest v : List Char}
    (h : Parser.takeP n i = .ok rest v) : rest = i.drop n := by
  unfold Parser.takeP at h
  by_cases hn : n ≤ i.length
  · simp [hn] at h
    rw [h.1]
  · simp [hn] at h

theorem takeWhile1P_ok {p : Char → Bool} {j rest v : List Char}
    (h : Parser.takeWhile1P p j = .ok rest v) : rest = j.dropWhile p := by
  unfold Parser.takeWhile1P at h
  cases htw : j.takeWhile p with
  | nil => rw [htw] at h; cases h
  | cons a t =>
    rw [htw] at h
    cases h
    rfl

/-- On inputs with no escape-newline pair the two chunk alternatives agree
(the line-continuation branch of the generate-api version never fires). -/
theorem chunk_agree (esc : Char) (j : List Char) (h : hasEscNl esc j = false) :
    Parser.parse_str_chunk esc j = Parser.build_parse_str_chunk esc j := by
  unfold Parser.parse_str_chunk Parser.build_parse_str_chunk
  cases hA : Parser.takeWhile1P (fun c => !(c == esc) && !(c == '"')) j with
  | ok r v => simp [Parser.altP, hA]
  | fail => simp [Parser.altP, hA]
  | err =>
    have hB : (Parser.precededP (Parser.charP esc) (Parser.charP '\n') j).pmap
        (fun _ => ([] : List Char)) = .err := by
      cases j with
      | nil => rfl
      | cons c t =>
        by_cases hc : c = esc
        · subst hc
          cases t with
          | nil => simp [Parser.precededP, Parser.charP, Parser.PRes.pmap]
          | cons c2 t2 =>
            by_cases h2 : c2 = '\n'
            · subst h2
              simp [hasEscNl] at h
            · simp [Parser.precededP, Parser.charP, Parser.PRes.pmap, h2]
        · simp [Parser.precededP, Parser.charP, Parser.PRes.pmap, hc]
    simp [Parser.altP, hA, hB]

/-- A successful chunk leaves a suffix of its input. -/
theorem chunk_rest_suffix (esc : Char) (j r cs : List Char)
    (h : Parser.parse_str_chunk esc j = .ok r cs) : r <:+ j := by
  unfold Parser.parse_str_chunk at h
  cases hA : Parser.takeWhile1P (fun c => !(c == esc) && !(c == '"')) j with
  | ok rA vA =>
    simp only [Parser.altP, hA] at h
    cases h
    rw [takeWhile1P_ok hA]
    exact List.dropWhile_suffix _
  | fail =>
    simp only [Parser.altP, hA] at h
    exact Parser.PRes.noConfusion h
  | err =>
    simp only [Parser.altP, hA] at h
    cases hB : (Parser.precededP (Parser.charP esc) (Parser.charP '\n') j).pmap
        (fun _ => ([] : List Char)) with
    | ok rB vB =>
      rw [hB] at h
      cases h
      obtain ⟨v0, hB2⟩ := pmap_ok hB
      obtain ⟨r1, v1, hp1, hp2⟩ := precededP_ok hB2
      rw [charP_ok hp1, charP_ok hp2]
      exact ⟨[esc, '\n'], rfl⟩
    | fail => rw [hB] at h; cases h
    | err =>
      rw [hB] at h
      obtain ⟨r1, v1, hp1, hp2⟩ := precededP_ok h
      rw [charP_ok hp1, takeP_ok hp2]
      exact (List.drop_suffix 1 r1).trans (List.suffix_cons esc r1)

/-- The `fold_many0` loops of the two `parse_str` duplicates agree on any
input without an escape-newline pair. -/
theorem parse_str_go_agree (esc : Char) :
    ∀ (fuel : Nat) (j : List Char) (acc : List String), hasEscNl esc j = false →
      Parser.many0Go (Parser.unescapedChunk (Parser.parse_str_chunk esc)) fuel j acc =
      Parser.many0Go (Parser.unescapedChunk (Parser.build_parse_str_chunk esc)) fuel j acc := by
  intro fuel
  induction fuel with
  | zero => intro j acc _; rfl
  | succ n ih =>
    intro j acc h
    have hcongr : Parser.unescapedChunk (Parser.parse_str_chunk esc) j =
        Parser.unescapedChunk (Parser.build_parse_str_chunk esc) j := by
      unfold Parser.unescapedChunk
      rw [chunk_agree esc j h]
    simp only [Parser.many0Go]
    rw [← hcongr]
    cases hu : Parser.unescapedChunk (Parser.parse_str_chunk esc) j with
    | err => rfl
    | fail => rfl
    | ok i1 o =>
      by_cases hii : i1 = j
      · simp [hii]
      · have hrest : hasEscNl esc i1 = false := by
          unfold Parser.unescapedChunk at hu
          cases hc : Parser.parse_str_chunk esc j with
          | err => simp only [hc] at hu; exact Parser.PRes.noConfusion hu
          | fail => simp only [hc] at hu; exact Parser.PRes.noConfusion hu
          | ok r csc =>
            simp only [hc] at hu
            have hr : r = i1 := by
              cases hw : Parser.unescape_unicode csc with
              | ok r2 s => simp only [hw] at hu; exact (Parser.PRes.ok.injEq _ _ _ _).mp hu |>.1
              | err => simp only [hw] at hu; exact Parser.PRes.noConfusion hu
              | fail => simp only [hw] at hu; exact Parser.PRes.noConfusion hu
            exact hasEscNl_suffix esc (hr ▸ chunk_rest_suffix esc j r csc hc) h
        simpa [hii] using ih i1 (o :: acc) hrest

/-- **C10** (corrected).  The two quoted-string body parsers agree on every
input (for every escape character) that contains no escape character
immediately followed by a newline; on a line continuation they differ: the
generate-api `parse_str` drops the escaped newline, while the `build.rs`
copy splices the newline into the string. -/
theorem claim_C10_parse_str_agree_without_continuation (esc : Char) (i : List Char)
    (h : hasEscNl esc i = false) :
    Parser.parse_str esc i = Parser.build_parse_str esc i := by
  unfold Parser.parse_str Parser.build_parse_str Parser.foldMany0StrP Parser.many0P
  rw [parse_str_go_agree esc (i.length + 1) i [] h]

/-- Witness for C10 on a concrete continuation-free input. -/
theorem claim_C10_witness :
    hasEscNl '/' "ab".toList = false ∧
    Parser.parse_str '/' "ab".toList = Parser.build_parse_str '/' "ab".toList :=
  ⟨rfl, claim_C10_parse_str_agree_without_continuation '/' "ab".toList rfl⟩

/-- Counterexample to C10 as stated: on `a/⏎b` (escape `/` followed by a
newline) the two parsers disagree — the generate-api version yields `"ab"`,
the `build.rs` version `"a\nb"`. -/
theorem claim_C10_counterexample :
    Parser.parse_str '/' ('a' :: '/' :: '\n' :: 'b' :: []) = .ok [] "ab" ∧
    Parser.build_parse_str '/' ('a' :: '/' :: '\n' :: 'b' :: []) = .ok [] "a\nb" ∧
    Parser.parse_str '/' ('a' :: '/' :: '\n' :: 'b' :: []) ≠
      Parser.build_parse_str '/' ('a' :: '/' :: '\n' :: 'b' :: []) :=
  ⟨rfl, rfl, by decide⟩

/-!
Part 11: sortedness and domain lemmas for the map model (towards C1, C4).
-/

def smSorted {α : Type} (m : SMap α) : Prop :=
  List.Pairwise (fun a b => keyLt a.1 b.1 = true) m

theorem smSorted_nil {α : Type} : smSorted ([] : SMap α) := List.Pairwise.nil

theorem mem_smInsert {α : Type} {k : String} {v : α} :
    ∀ {m : SMap α} {x : String × α}, x ∈ smInsert k v m → x = (k, v) ∨ x ∈ m := by
  intro m
  induction m with
  | nil => intro x hx; simpa [smInsert] using hx
  | cons e t ih =>
    intro x hx
    by_cases h1 : keyLt k e.1
    · simp only [smInsert, if_pos h1, List.mem_cons] at hx
      rcases hx with h | h | h
      · exact Or.inl h
      · exact Or.inr (by simp [h])
      · exact Or.inr (List.mem_cons_of_mem _ h)
    · by_cases h2 : k = e.1
      · simp only [smInsert, if_neg h1, if_pos h2, List.mem_cons] at hx
        rcases hx with h | h
        · exact Or.inl h
        · exact Or.inr (List.mem_cons_of_mem _ h)
      · simp only [smInsert, if_neg h1, if_neg h2, List.mem_cons] at hx
        rcases hx with h | h
        · exact Or.inr (by simp [h])
        · rcases ih h with h3 | h3
          · exact Or.inl h3
          · exact Or.inr (List.mem_cons_of_mem _ h3)

theorem smSorted_insert {α : Type} (k : String) (v : α) :
    ∀ {m : SMap α}, smSorted m → smSorted (smInsert k v m) := by
  intro m
  induction m with
  | nil => intro _; simp [smSorted, smInsert]
  | cons e t ih =>
    intro hs
    have he := (List.pairwise_cons.mp hs).1
    have ht := (List.pairwise_cons.mp hs).2
    by_cases h1 : keyLt k e.1
    · simp only [smInsert, if_pos h1]
      refine List.pairwise_cons.mpr ⟨?_, hs⟩
      intro x hx
      rcases List.mem_cons.mp hx with rfl | hx2
      · exact h1
      · exact keyLt_trans h1 (he x hx2)
    · by_cases h2 : k = e.1
      · subst h2
        simp only [smInsert, if_neg h1, if_pos rfl]
        exact List.pairwise_cons.mpr ⟨fun x hx => he x hx, ht⟩
      · simp only [smInsert, if_neg h1, if_neg h2]
        refine List.pairwise_cons.mpr ⟨?_, ih ht⟩
        intro x hx
        rcases mem_smInsert hx with rfl | hx2
        · exact keyLt_total_of_ne h2 (by simpa using h1)
        · exact he x hx2

theorem smLookup_isSome_insert {α : Type} (k : String) (v : α) (m : SMap α) (k2 : String) :
    (smLookup (smInsert k v m) k2).isSome = true ↔
      (k2 = k ∨ (smLookup m k2).isSome = true) := by
  by_cases h : k2 = k
  · subst h
    simp [smLookup_insert_self]
  · simp [smLookup_insert_ne k v m k2 h, h]

theorem smLookup_mem {α : Type} : ∀ {m : SMap α} {k : String} {v : α},
    smLookup m k = some v → (k, v) ∈ m := by
  intro m
  induction m with
  | nil => intro k v h; cases h
  | cons e t ih =>
    intro k v h
    by_cases h1 : k = e.1
    · subst h1
      simp only [smLookup, if_pos rfl] at h
      cases h
      exact List.mem_cons_self _ _
    · simp only [smLookup, if_neg h1] at h
      exact List.mem_cons_of_mem _ (ih h)

theorem smLookup_of_mem {α : Type} : ∀ {m : SMap α} {k : String} {v : α},
    smSorted m → (k, v) ∈ m → smLookup m k = some v := by
  intro m
  induction m with
  | nil => intro k v _ h; cases h
  | cons e t ih =>
    intro k v hs hm
    have he := (List.pairwise_cons.mp hs).1
    have ht := (List.pairwise_cons.mp hs).2
    rcases List.mem_cons.mp hm with h | h
    · rw [← h]
      simp [smLookup]
    · have hk : keyLt e.1 k = true := he (k, v) h
      have hne : ¬ k = e.1 := by
        intro hh
        subst hh
        simp [keyLt_irrefl] at hk
      simp only [smLookup, if_neg hne]
      exact ih ht h

/-!
Part 12: first-pass invariants of `CodeGenerator::new` (towards C1).
Every key of a locale's `Fields` table has an entry in the canonical field
metadata of its category, and the metadata only ever grows.
-/

/-- Domain monotonicity between two field-metadata maps. -/
def fmMono (fm fm' : SMap (SMap Generator.Meta)) : Prop :=
  ∀ c metas, smLookup fm c = some metas →
    ∃ metas', smLookup fm' c = some metas' ∧
      ∀ k, (smLookup metas k).isSome = true → (smLookup metas' k).isSome = true

theorem fmMono_refl (fm : SMap (SMap Generator.Meta)) : fmMono fm fm :=
  fun _ metas h => ⟨metas, h, fun _ hk => hk⟩

theorem fmMono_trans {a b c : SMap (SMap Generator.Meta)}
    (h1 : fmMono a b) (h2 : fmMono b c) : fmMono a c := by
  intro cc metas hm
  obtain ⟨m2, hm2, hs2⟩ := h1 cc metas hm
  obtain ⟨m3, hm3, hs3⟩ := h2 cc m2 hm2
  exact ⟨m3, hm3, fun k hk => hs3 k (hs2 k hk)⟩

/-- The per-category invariant: every key of a `Fields` table appears in
that category's metadata. -/
def invC (cats : SMap Generator.Category) (fm : SMap (SMap Generator.Meta)) : Prop :=
  ∀ c f, smLookup cats c = some (Generator.Category.Fields f) →
    ∃ metas, smLookup fm c = some metas ∧
      ∀ k, (smLookup f k).isSome = true → (smLookup metas k).isSome = true

theorem invC_mono {cats fm fm'} (hc : invC cats fm) (hm : fmMono fm fm') : invC cats fm' := by
  intro c f hcf
  obtain ⟨metas, h1, h2⟩ := hc c f hcf
  obtain ⟨m2, h3, h4⟩ := hm c metas h1
  exact ⟨m2, h3, fun k hk => h4 k (h2 k hk)⟩

theorem buildFields_spec :
    ∀ (groups : List (String × List (List Parser.Value))) (fields0 : SMap Generator.Value)
      (cm0 : SMap Generator.Meta) (f : SMap Generator.Value) (cm : SMap Generator.Meta),
      Generator.buildFields groups fields0 cm0 = some (f, cm) →
      (∀ k, (smLookup cm0 k).isSome = true → (smLookup cm k).isSome = true) ∧
      (∀ k, (smLookup f k).isSome = true →
        (smLookup fields0 k).isSome = true ∨ (smLookup cm k).isSome = true) ∧
      (smSorted cm0 → smSorted cm) := by
  intro groups
  induction groups with
  | nil =>
    intro fields0 cm0 f cm h
    simp only [Generator.buildFields, Option.some.injEq, Prod.mk.injEq] at h
    obtain ⟨h1, h2⟩ := h
    subst h1; subst h2
    exact ⟨fun _ hk => hk, fun _ hk => Or.inl hk, fun hs => hs⟩
  | cons g rest ih =>
    intro fields0 cm0 f cm h
    obtain ⟨key0, group⟩ := g
    simp only [Generator.buildFields] at h
    cases hc : Generator.classifyGroup group with
    | none => simp only [hc] at h; exact Option.noConfusion h
    | some p =>
      obtain ⟨gv, marks⟩ := p
      simp only [hc] at h
      have ih2 := ih _ _ _ _ h
      refine ⟨?_, ?_, ?_⟩
      · intro k hk
        exact ih2.1 k ((smLookup_isSome_insert _ _ cm0 k).mpr (Or.inr hk))
      · intro k hk
        rcases ih2.2.1 k hk with h2 | h2
        · rcases (smLookup_isSome_insert _ _ fields0 k).mp h2 with rfl | h3
          · exact Or.inr (ih2.1 _ ((smLookup_isSome_insert _ _ cm0 _).mpr (Or.inl rfl)))
          · exact Or.inl h3
        · exact Or.inr h2
      · intro hs
        exact ih2.2.2 (smSorted_insert _ _ hs)

theorem fieldsBranch_inv {cats : SMap Generator.Category}
    {fm : SMap (SMap Generator.Meta)} {name : String}
    {vals : List (String × List Parser.Value)} {fl : SMap Generator.Value}
    {cm : SMap Generator.Meta}
    (hb : Generator.buildFields (Generator.groupedValues vals) []
      ((smLookup fm name).getD []) = some (fl, cm)) :
    fmMono fm (smInsert name cm fm) ∧
    (invC cats fm →
      invC (smInsert name (Generator.Category.Fields fl) cats) (smInsert name cm fm)) ∧
    (smSorted fm → smSorted (smInsert name cm fm)) := by
  have hbs := buildFields_spec _ _ _ _ _ hb
  refine ⟨?_, ?_, fun hs => smSorted_insert _ _ hs⟩
  · intro c metas hc
    by_cases hcn : c = name
    · subst hcn
      refine ⟨cm, smLookup_insert_self _ _ _, ?_⟩
      intro k hk
      apply hbs.1 k
      simpa [hc] using hk
    · exact ⟨metas, by rw [smLookup_insert_ne _ _ _ _ hcn]; exact hc, fun _ hk => hk⟩
  · intro hinv c f hcf
    by_cases hcn : c = name
    · subst hcn
      rw [smLookup_insert_self] at hcf
      simp only [Option.some.injEq, Generator.Category.Fields.injEq] at hcf
      subst hcf
      refine ⟨cm, smLookup_insert_self _ _ _, ?_⟩
      intro k hk
      rcases hbs.2.1 k hk with h2 | h2
      · simp [smLookup] at h2
      · exact h2
    · rw [smLookup_insert_ne _ _ _ _ hcn] at hcf
      obtain ⟨metas, hm, hsub⟩ := hinv c f hcf
      exact ⟨metas, by rw [smLookup_insert_ne _ _ _ _ hcn]; exact hm, hsub⟩

theorem processObject_inv {cats fm cats' fm'} {o : Parser.Object}
    (h : Generator.processObject cats fm o = some (cats', fm')) :
    fmMono fm fm' ∧ (invC cats fm → invC cats' fm') ∧ (smSorted fm → smSorted fm') := by
  unfold Generator.processObject at h
  by_cases hs : Generator.skipCategory o.name
  · rw [if_pos hs] at h
    simp only [Option.some.injEq, Prod.mk.injEq] at h
    obtain ⟨h1, h2⟩ := h
    subst h1; subst h2
    exact ⟨fmMono_refl fm, fun hi => hi, fun hw => hw⟩
  · rw [if_neg hs] at h
    cases hov : o.values with
    | nil =>
      simp only [hov] at h
      cases hb : Generator.buildFields (Generator.groupedValues []) []
          ((smLookup fm o.name).getD []) with
      | none => simp only [hb] at h; exact Option.noConfusion h
      | some p =>
        obtain ⟨fl, cm⟩ := p
        simp only [hb, Option.some.injEq, Prod.mk.injEq] at h
        obtain ⟨h1, h2⟩ := h
        subst h1; subst h2
        exact fieldsBranch_inv hb
    | cons hd tl =>
      obtain ⟨key, value⟩ := hd
      cases tl with
      | nil =>
        simp only [hov] at h
        by_cases hk : key = "copy"
        · rw [if_pos hk] at h
          cases value with
          | nil => simp at h
          | cons v0 vt =>
            cases vt with
            | nil =>
              cases v0 with
              | Str x =>
                simp only [Option.some.injEq, Prod.mk.injEq] at h
                obtain ⟨h1, h2⟩ := h
                subst h1; subst h2
                refine ⟨fmMono_refl fm, fun hi c f hcf => ?_, fun hw => hw⟩
                by_cases hcn : c = o.name
                · subst hcn
                  rw [smLookup_insert_self] at hcf
                  simp at hcf
                · rw [smLookup_insert_ne _ _ _ _ hcn] at hcf
                  exact hi c f hcf
              | Raw x => simp at h
              | Integer n => simp at h
            | cons _ _ => simp at h
        · rw [if_neg hk] at h
          simp only [Option.some.injEq, Prod.mk.injEq] at h
          obtain ⟨h1, h2⟩ := h
          subst h1; subst h2
          exact ⟨fmMono_refl fm, fun hi => hi, fun hw => hw⟩
      | cons hd2 tl2 =>
        simp only [hov] at h
        cases hb : Generator.buildFields
            (Generator.groupedValues ((key, value) :: hd2 :: tl2)) []
            ((smLookup fm o.name).getD []) with
        | none => simp only [hb] at h; exact Option.noConfusion h
        | some p =>
          obtain ⟨fl, cm⟩ := p
          simp only [hb, Option.some.injEq, Prod.mk.injEq] at h
          obtain ⟨h1, h2⟩ := h
          subst h1; subst h2
          exact fieldsBranch_inv hb

theorem processObjects_inv : ∀ {objs : List Parser.Object} {cats fm cats' fm'},
    Generator.processObjects objs cats fm = some (cats', fm') →
    fmMono fm fm' ∧ (invC cats fm → invC cats' fm') ∧ (smSorted fm → smSorted fm') := by
  intro objs
  induction objs with
  | nil =>
    intro cats fm cats' fm' h
    simp only [Generator.processObjects, Option.some.injEq, Prod.mk.injEq] at h
    obtain ⟨h1, h2⟩ := h
    subst h1; subst h2
    exact ⟨fmMono_refl _, fun hi => hi, fun hw => hw⟩
  | cons o rest ih =>
    intro cats fm cats' fm' h
    simp only [Generator.processObjects] at h
    cases hpo : Generator.processObject cats fm o with
    | none => simp only [hpo] at h; exact Option.noConfusion h
    | some p =>
      obtain ⟨c1, f1⟩ := p
      simp only [hpo] at h
      have h1 := processObject_inv hpo
      have h2 := ih h
      exact ⟨fmMono_trans h1.1 h2.1, fun hi => h2.2.1 (h1.2.1 hi),
        fun hw => h2.2.2 (h1.2.2 hw)⟩

/-- The whole-state invariant after the first pass. -/
def invS (st : Generator.CodeGenerator) : Prop :=
  ∀ lang cats, smLookup st.by_language lang = some cats → invC cats st.field_metadata

def wfS (st : Generator.CodeGenerator) : Prop :=
  smSorted st.by_language ∧ smSorted st.field_metadata

theorem invC_getD (st : Generator.CodeGenerator) (hi : invS st) (lang : String) :
    invC ((smLookup st.by_language lang).getD []) st.field_metadata := by
  cases hl : smLookup st.by_language lang with
  | some c0 => simpa [hl] using hi lang c0 hl
  | none =>
    intro c f hcf
    simp [smLookup] at hcf

theorem processLocale_inv {st st' : Generator.CodeGenerator} {lang : String}
    {objs : List Parser.Object}
    (h : Generator.processLocale st lang objs = some st')
    (hi : invS st) (hw : wfS st) : invS st' ∧ wfS st' := by
  unfold Generator.processLocale at h
  cases hp : Generator.processObjects objs ((smLookup st.by_language lang).getD [])
      st.field_metadata with
  | none => simp only [hp] at h; exact Option.noConfusion h
  | some p =>
    obtain ⟨cats1, fm1⟩ := p
    simp only [hp, Option.some.injEq] at h
    subst h
    have hobj := processObjects_inv hp
    constructor
    · intro l2 cats2 hl2
      simp only at hl2
      by_cases hll : l2 = lang
      · subst hll
        rw [smLookup_insert_self] at hl2
        cases hl2
        exact hobj.2.1 (invC_getD st hi l2)
      · rw [smLookup_insert_ne _ _ _ _ hll] at hl2
        exact invC_mono (hi l2 cats2 hl2) hobj.1
    · exact ⟨smSorted_insert _ _ hw.1, hobj.2.2 hw.2⟩

theorem pass1Go_inv : ∀ {input : List (String × List Parser.Object)}
    {st st' : Generator.CodeGenerator},
    Generator.pass1Go st input = some st' → invS st → wfS st → invS st' ∧ wfS st' := by
  intro input
  induction input with
  | nil =>
    intro st st' h hi hw
    simp only [Generator.pass1Go, Option.some.injEq] at h
    subst h
    exact ⟨hi, hw⟩
  | cons e rest ih =>
    intro st st' h hi hw
    obtain ⟨lang, objs⟩ := e
    simp only [Generator.pass1Go] at h
    cases hp : Generator.processLocale st lang objs with
    | none => simp only [hp] at h; exact Option.noConfusion h
    | some st2 =>
      simp only [hp] at h
      have h2 := processLocale_inv hp hi hw
      exact ih h h2.1 h2.2

/-!
Part 13: the second pass of `CodeGenerator::new` (towards C1).
-/

theorem smLookup_cons_isSome {α : Type} (k k0 : String) (v0 : α) (m : SMap α) :
    (smLookup ((k0, v0) :: m) k).isSome = true ↔
      (k = k0 ∨ (smLookup m k).isSome = true) := by
  by_cases h : k = k0 <;> simp [smLookup, h]

theorem smLookup_isSome_iff_mem_keys {α : Type} :
    ∀ {m : SMap α} {k : String},
      (smLookup m k).isSome = true ↔ k ∈ m.map Prod.fst := by
  intro m
  induction m with
  | nil => intro k; simp [smLookup]
  | cons e t ih =>
    intro k
    obtain ⟨k0, v0⟩ := e
    rw [smLookup_cons_isSome]
    simp [ih]

/-- After `unifyFields`, a field key is present iff it was present in the
locale's own table or in the canonical metadata. -/
theorem unifyFields_fields_dom :
    ∀ (metas : List (String × Generator.Meta)) (fields : SMap Generator.Value) (k : String),
      ((smLookup (Generator.unifyFields fields metas).1 k).isSome = true) ↔
        ((smLookup fields k).isSome = true ∨ (smLookup metas k).isSome = true) := by
  intro metas
  induction metas with
  | nil =>
    intro fields k
    simp [Generator.unifyFields, smLookup]
  | cons e rest ih =>
    intro fields k
    obtain ⟨k0, m0⟩ := e
    simp only [Generator.unifyFields]
    cases hf : smLookup fields k0 with
    | none =>
      simp only
      rw [ih (smInsert k0 Generator.Value.Empty fields) k, smLookup_isSome_insert,
        smLookup_cons_isSome]
      tauto
    | some v =>
      simp only
      rw [ih fields k, smLookup_cons_isSome]
      constructor
      · rintro (h | h)
        · exact Or.inl h
        · exact Or.inr (Or.inr h)
      · rintro (h | h | h)
        · exact Or.inl h
        · subst h
          exact Or.inl (by simp [hf])
        · exact Or.inr h

/-- `unifyFields` preserves the key set of the metadata (it only toggles the
`optional` flag). -/
theorem unifyFields_metas_dom :
    ∀ (metas : List (String × Generator.Meta)) (fields : SMap Generator.Value) (k : String),
      (smLookup (Generator.unifyFields fields metas).2 k).isSome =
        (smLookup metas k).isSome := by
  intro metas
  induction metas with
  | nil => intro fields k; simp [Generator.unifyFields]
  | cons e rest ih =>
    intro fields k
    obtain ⟨k0, m0⟩ := e
    simp only [Generator.unifyFields]
    cases hf : smLookup fields k0 with
    | none => by_cases hk : k = k0 <;> simp [smLookup, hk, ih]
    | some v => by_cases hk : k = k0 <;> simp [smLookup, hk, ih]

/-- Domain equivalence of field-metadata maps: same categories, and the
same field-key set per category (the second pass only flips `optional`). -/
def fmDomEq (fm0 fm : SMap (SMap Generator.Meta)) : Prop :=
  (∀ c, (smLookup fm c).isSome = (smLookup fm0 c).isSome) ∧
  (∀ c m0 m1, smLookup fm0 c = some m0 → smLookup fm c = some m1 →
    ∀ k, (smLookup m1 k).isSome = (smLookup m0 k).isSome)

theorem fmDomEq_refl (fm : SMap (SMap Generator.Meta)) : fmDomEq fm fm :=
  ⟨fun _ => rfl, fun _ m0 m1 h0 h1 k => by rw [h0] at h1; cases h1; rfl⟩

theorem fmDomEq_step {fm0 fm fm' : SMap (SMap Generator.Meta)}
    (h1 : fmDomEq fm0 fm) (h2 : fmDomEq fm fm') : fmDomEq fm0 fm' := by
  refine ⟨fun c => (h2.1 c).trans (h1.1 c), ?_⟩
  intro c m0 m2 h0 hm2 k
  have hs : (smLookup fm c).isSome = true := by rw [h1.1 c, h0]; rfl
  obtain ⟨m1, hm1⟩ := Option.isSome_iff_exists.mp hs
  exact (h2.2 c m1 m2 hm1 hm2 k).trans (h1.2 c m0 m1 h0 hm1 k)

theorem pass2LangGo_sorted :
    ∀ (E : List (String × SMap Generator.Meta)) (cats : SMap Generator.Category)
      (fm : SMap (SMap Generator.Meta)), smSorted fm →
      smSorted (Generator.pass2LangGo cats fm E).2 := by
  intro E
  induction E with
  | nil => intro cats fm h; exact h
  | cons e rest ih =>
    intro cats fm h
    obtain ⟨c0, m0⟩ := e
    simp only [Generator.pass2LangGo]
    exact ih _ _ (smSorted_insert _ _ h)

theorem pass2LangGo_spec :
    ∀ (E : List (String × SMap Generator.Meta)) (cats : SMap Generator.Category)
      (fm : SMap (SMap Generator.Meta)),
      List.Pairwise (fun a b => keyLt a.1 b.1 = true) E →
      (∀ c, c ∉ E.map Prod.fst →
        smLookup (Generator.pass2LangGo cats fm E).1 c = smLookup cats c ∧
        smLookup (Generator.pass2LangGo cats fm E).2 c = smLookup fm c) ∧
      (∀ c metas, (c, metas) ∈ E →
        smLookup (Generator.pass2LangGo cats fm E).1 c =
          some ((Generator.unifyCategory
            ((smLookup cats c).getD (Generator.Category.Fields [])) metas).1) ∧
        smLookup (Generator.pass2LangGo cats fm E).2 c =
          some ((Generator.unifyCategory
            ((smLookup cats c).getD (Generator.Category.Fields [])) metas).2)) := by
  intro E
  induction E with
  | nil =>
    intro cats fm _
    exact ⟨fun _ _ => ⟨rfl, rfl⟩, fun c metas h => absurd h (List.not_mem_nil _)⟩
  | cons e rest ih =>
    intro cats fm hp
    obtain ⟨c0, m0⟩ := e
    have hp1 := (List.pairwise_cons.mp hp).1
    have hp2 := (List.pairwise_cons.mp hp).2
    have hc0nr : c0 ∉ rest.map Prod.fst := by
      intro hmem
      obtain ⟨x, hx, hx2⟩ := List.mem_map.mp hmem
      have hlt := hp1 x hx
      rw [hx2] at hlt
      simp [keyLt_irrefl] at hlt
    simp only [Generator.pass2LangGo]
    have ihs := ih (smInsert c0 (Generator.unifyCategory
        ((smLookup cats c0).getD (Generator.Category.Fields [])) m0).1 cats)
      (smInsert c0 (Generator.unifyCategory
        ((smLookup cats c0).getD (Generator.Category.Fields [])) m0).2 fm) hp2
    constructor
    · intro c hc
      have hcc0 : ¬ c = c0 := fun h => hc (by simp [h])
      have hcr : c ∉ rest.map Prod.fst := fun h => hc (by simp [h])
      exact ⟨by rw [(ihs.1 c hcr).1, smLookup_insert_ne _ _ _ _ hcc0],
        by rw [(ihs.1 c hcr).2, smLookup_insert_ne _ _ _ _ hcc0]⟩
    · intro c metas hm
      rcases List.mem_cons.mp hm with he | hm2
      · have hcc : c = c0 := congrArg Prod.fst he
        have hmm : metas = m0 := congrArg Prod.snd he
        subst hcc
        subst hmm
        exact ⟨by rw [(ihs.1 c hc0nr).1, smLookup_insert_self],
          by rw [(ihs.1 c hc0nr).2, smLookup_insert_self]⟩
      · have hcc0 : ¬ c = c0 := by
          intro h
          subst h
          exact hc0nr (List.mem_map.mpr ⟨(c, metas), hm2, rfl⟩)
        have hr := ihs.2 c metas hm2
        rw [smLookup_insert_ne _ _ _ _ hcc0] at hr
        exact hr

theorem pass2Lang_fm_step (cats : SMap Generator.Category)
    (fm : SMap (SMap Generator.Meta)) (hs : smSorted fm) :
    smSorted (Generator.pass2Lang cats fm).2 ∧
    fmDomEq fm (Generator.pass2Lang cats fm).2 := by
  unfold Generator.pass2Lang
  have hspec := pass2LangGo_spec fm cats fm hs
  refine ⟨pass2LangGo_sorted fm cats fm hs, ?_, ?_⟩
  · intro c
    cases hl : smLookup fm c with
    | none =>
      have hnm : c ∉ fm.map Prod.fst := by
        intro hmem
        have hsome := smLookup_isSome_iff_mem_keys.mpr hmem
        rw [hl] at hsome
        simp at hsome
      rw [(hspec.1 c hnm).2, hl]
    | some metas =>
      have hmem := smLookup_mem hl
      rw [(hspec.2 c metas hmem).2]
      rfl
  · intro c m0 m1 h0 h1 k
    have hmem := smLookup_mem h0
    have hchar := (hspec.2 c m0 hmem).2
    rw [hchar] at h1
    cases h1
    cases hcat : (smLookup cats c).getD (Generator.Category.Fields []) with
    | Link a b => simp [Generator.unifyCategory]
    | Fields f => simp [Generator.unifyCategory, unifyFields_metas_dom]

/-- The category tables produced by the second pass for one locale: every
`Fields` table has exactly the key set of the category's canonical
metadata (stated against the first-pass metadata `fm0`). -/
theorem pass2Lang_fields_dom {cats : SMap Generator.Category}
    {fmx fm0 : SMap (SMap Generator.Meta)} (hsx : smSorted fmx)
    (hde : fmDomEq fm0 fmx) (hic : invC cats fm0) :
    ∀ c f', smLookup (Generator.pass2Lang cats fmx).1 c =
        some (Generator.Category.Fields f') →
      ∃ metas0, smLookup fm0 c = some metas0 ∧
        ∀ k, ((smLookup f' k).isSome = true ↔ (smLookup metas0 k).isSome = true) := by
  intro c f' hcf
  unfold Generator.pass2Lang at hcf
  have hspec := pass2LangGo_spec fmx cats fmx hsx
  cases hlx : smLookup fmx c with
  | none =>
    have hnm : c ∉ fmx.map Prod.fst := by
      intro hmem
      have hsome := smLookup_isSome_iff_mem_keys.mpr hmem
      rw [hlx] at hsome
      simp at hsome
    rw [(hspec.1 c hnm).1] at hcf
    obtain ⟨metas0, hm0, hsub⟩ := hic c f' hcf
    have : (smLookup fmx c).isSome = (smLookup fm0 c).isSome := hde.1 c
    rw [hlx, hm0] at this
    simp at this
  | some metasx =>
    have hmem := smLookup_mem hlx
    rw [(hspec.2 c metasx hmem).1] at hcf
    have hsome0 : (smLookup fm0 c).isSome = true := by
      rw [← hde.1 c, hlx]
      rfl
    obtain ⟨metas0, hm0⟩ := Option.isSome_iff_exists.mp hsome0
    have hmx0 : ∀ k, (smLookup metasx k).isSome = (smLookup metas0 k).isSome :=
      hde.2 c metas0 metasx hm0 hlx
    refine ⟨metas0, hm0, ?_⟩
    cases hcat : (smLookup cats c).getD (Generator.Category.Fields []) with
    | Link a b =>
      rw [hcat] at hcf
      simp [Generator.unifyCategory] at hcf
    | Fields f0 =>
      rw [hcat] at hcf
      simp only [Generator.unifyCategory, Option.some.injEq,
        Generator.Category.Fields.injEq] at hcf
      subst hcf
      intro k
      rw [unifyFields_fields_dom]
      constructor
      · rintro (h | h)
        · -- a key of the locale's own table is in the metadata
          cases hc0 : smLookup cats c with
          | none =>
            rw [hc0] at hcat
            simp at hcat
            rw [hcat] at h
            simp [smLookup] at h
          | some cat0 =>
            rw [hc0] at hcat
            simp at hcat
            rw [hcat] at hc0
            obtain ⟨metas0b, hm0b, hsubb⟩ := hic c f0 hc0
            rw [hm0b] at hm0
            cases hm0
            exact hsubb k h
        · rw [← hmx0 k]
          exact h
      · intro h
        exact Or.inr (by rw [hmx0 k]; exact h)

theorem pass2Go_spec (fm0 : SMap (SMap Generator.Meta)) :
    ∀ (L : List (String × SMap Generator.Category)) (bl : SMap (SMap Generator.Category))
      (fm : SMap (SMap Generator.Meta)),
      List.Pairwise (fun a b => keyLt a.1 b.1 = true) L →
      smSorted fm → fmDomEq fm0 fm →
      (∀ l, l ∉ L.map Prod.fst →
        smLookup (Generator.pass2Go bl fm L).1 l = smLookup bl l) ∧
      (∀ l cats, (l, cats) ∈ L → ∃ fmx, smSorted fmx ∧ fmDomEq fm0 fmx ∧
        smLookup (Generator.pass2Go bl fm L).1 l =
          some ((Generator.pass2Lang cats fmx).1)) := by
  intro L
  induction L with
  | nil =>
    intro bl fm _ hs hd
    exact ⟨fun _ _ => rfl, fun l cats h => absurd h (List.not_mem_nil _)⟩
  | cons e rest ih =>
    intro bl fm hp hs hd
    obtain ⟨l0, cats0⟩ := e
    have hp1 := (List.pairwise_cons.mp hp).1
    have hp2 := (List.pairwise_cons.mp hp).2
    have hl0nr : l0 ∉ rest.map Prod.fst := by
      intro hmem
      obtain ⟨x, hx, hx2⟩ := List.mem_map.mp hmem
      have hlt := hp1 x hx
      rw [hx2] at hlt
      simp [keyLt_irrefl] at hlt
    simp only [Generator.pass2Go]
    have hstep := pass2Lang_fm_step cats0 fm hs
    have ihs := ih (smInsert l0 (Generator.pass2Lang cats0 fm).1 bl)
      (Generator.pass2Lang cats0 fm).2 hp2 hstep.1 (fmDomEq_step hd hstep.2)
    constructor
    · intro l hl
      have hll0 : ¬ l = l0 := fun h => hl (by simp [h])
      have hlr : l ∉ rest.map Prod.fst := fun h => hl (by simp [h])
      rw [ihs.1 l hlr, smLookup_insert_ne _ _ _ _ hll0]
    · intro l cats hm
      rcases List.mem_cons.mp hm with he | hm2
      · have hll : l = l0 := congrArg Prod.fst he
        have hcc : cats = cats0 := congrArg Prod.snd he
        subst hll
        subst hcc
        refine ⟨fm, hs, hd, ?_⟩
        rw [ihs.1 l hl0nr, smLookup_insert_self]
      · exact ihs.2 l cats hm2

/-- **C1** (confirmed).  After unification (the second pass of
`CodeGenerator::new`), for every category name and every pair of locales
whose table contains that category as a genuine `Fields` table, the set of
field keys exposed by the two locales is identical: both tables' key sets
coincide with the canonical metadata of the category, every canonical key
missing from a locale's own fields having been inserted as the explicit
absence placeholder `Value::Empty` by `unifyFields`. -/
theorem claim_C1_unified_field_sets_identical
    (input : List (String × List Parser.Object)) (cg : Generator.CodeGenerator)
    (l1 l2 c : String) (cats1 cats2 : SMap Generator.Category)
    (f1 f2 : SMap Generator.Value)
    (hnew : Generator.CodeGenerator.new input = some cg)
    (h1 : smLookup cg.by_language l1 = some cats1)
    (h1c : smLookup cats1 c = some (Generator.Category.Fields f1))
    (h2 : smLookup cg.by_language l2 = some cats2)
    (h2c : smLookup cats2 c = some (Generator.Category.Fields f2)) :
    ∀ k, ((smLookup f1 k).isSome = true ↔ (smLookup f2 k).isSome = true) := by
  unfold Generator.CodeGenerator.new at hnew
  cases hp1 : Generator.pass1Go
      { by_language := [], field_metadata := [], normalized_langs := [] } input with
  | none => rw [hp1] at hnew; cases hnew
  | some st =>
    rw [hp1] at hnew
    simp only [Option.map_some', Option.some.injEq] at hnew
    subst hnew
    have hinit : invS { by_language := [], field_metadata := [], normalized_langs := [] } := by
      intro lang cats hl
      simp [smLookup] at hl
    have hwf0 : wfS { by_language := [], field_metadata := [], normalized_langs := [] } :=
      ⟨smSorted_nil, smSorted_nil⟩
    obtain ⟨hinv, hwf⟩ := pass1Go_inv hp1 hinit hwf0
    simp only [Generator.pass2] at h1 h2
    have hspec := pass2Go_spec st.field_metadata st.by_language st.by_language
      st.field_metadata hwf.1 hwf.2 (fmDomEq_refl _)
    have hmem1 : ∃ cats1p, (l1, cats1p) ∈ st.by_language := by
      by_cases hin : l1 ∈ st.by_language.map Prod.fst
      · obtain ⟨x, hx, hx2⟩ := List.mem_map.mp hin
        exact ⟨x.2, by rw [← hx2]; exact hx⟩
      · rw [hspec.1 l1 hin] at h1
        have := smLookup_isSome_iff_mem_keys.mp (by rw [h1]; rfl)
        exact absurd this hin
    obtain ⟨cats1p, hmem1p⟩ := hmem1
    have hmem2 : ∃ cats2p, (l2, cats2p) ∈ st.by_language := by
      by_cases hin : l2 ∈ st.by_language.map Prod.fst
      · obtain ⟨x, hx, hx2⟩ := List.mem_map.mp hin
        exact ⟨x.2, by rw [← hx2]; exact hx⟩
      · rw [hspec.1 l2 hin] at h2
        have := smLookup_isSome_iff_mem_keys.mp (by rw [h2]; rfl)
        exact absurd this hin
    obtain ⟨cats2p, hmem2p⟩ := hmem2
    obtain ⟨fmx1, hsx1, hde1, hchar1⟩ := hspec.2 l1 cats1p hmem1p
    obtain ⟨fmx2, hsx2, hde2, hchar2⟩ := hspec.2 l2 cats2p hmem2p
    rw [hchar1] at h1
    rw [hchar2] at h2
    simp only [Option.some.injEq] at h1 h2
    subst h1
    subst h2
    have hic1 : invC cats1p st.field_metadata :=
      hinv l1 cats1p (smLookup_of_mem hwf.1 hmem1p)
    have hic2 : invC cats2p st.field_metadata :=
      hinv l2 cats2p (smLookup_of_mem hwf.1 hmem2p)
    obtain ⟨metas0, hm0, hiff1⟩ := pass2Lang_fields_dom hsx1 hde1 hic1 c f1 h1c
    obtain ⟨metas0b, hm0b, hiff2⟩ := pass2Lang_fields_dom hsx2 hde2 hic2 c f2 h2c
    rw [hm0] at hm0b
    simp only [Option.some.injEq] at hm0b
    subst hm0b
    exact fun k => (hiff1 k).trans (hiff2 k).symm

/-- Witness for C1: two locales sharing category `LC_X` with different
field sets; after unification both expose the key `GAMMA` (present in one,
filled as `Empty` in the other). -/
theorem claim_C1_witness :
    ((smLookup [("ALPHA", Generator.Value.Literal "\"1x\""),
        ("BETA", Generator.Value.Literal "2"),
        ("GAMMA", Generator.Value.Empty)] "GAMMA").isSome = true ↔
      (smLookup [("ALPHA", Generator.Value.Empty),
        ("BETA", Generator.Value.Literal "3"),
        ("GAMMA", Generator.Value.Literal "\"g\"")] "GAMMA").isSome = true) :=
  claim_C1_unified_field_sets_identical
    [("aa", [⟨"LC_X", [("alpha", [.Str "1x"]), ("beta", [.Integer 2])]⟩]),
     ("bb", [⟨"LC_X", [("beta", [.Integer 3]), ("gamma", [.Str "g"])]⟩])]
    { by_language :=
        [("aa", [("LC_X", Generator.Category.Fields
          [("ALPHA", Generator.Value.Literal "\"1x\""),
           ("BETA", Generator.Value.Literal "2"),
           ("GAMMA", Generator.Value.Empty)])]),
         ("bb", [("LC_X", Generator.Category.Fields
          [("ALPHA", Generator.Value.Empty),
           ("BETA", Generator.Value.Literal "3"),
           ("GAMMA", Generator.Value.Literal "\"g\"")])])],
      field_metadata :=
        [("LC_X",
          [("ALPHA", { optional := true, container_ty := .Singleton, ty := some .Str }),
           ("BETA", { optional := false, container_ty := .Singleton, ty := some .Integer }),
           ("GAMMA", { optional := true, container_ty := .Singleton, ty := some .Str })])],
      normalized_langs := [("aa", "aa"), ("bb", "bb")] }
    "aa" "bb" "LC_X"
    [("LC_X", Generator.Category.Fields
      [("ALPHA", Generator.Value.Literal "\"1x\""),
       ("BETA", Generator.Value.Literal "2"),
       ("GAMMA", Generator.Value.Empty)])]
    [("LC_X", Generator.Category.Fields
      [("ALPHA", Generator.Value.Empty),
       ("BETA", Generator.Value.Literal "3"),
       ("GAMMA", Generator.Value.Literal "\"g\"")])]
    [("ALPHA", Generator.Value.Literal "\"1x\""),
     ("BETA", Generator.Value.Literal "2"),
     ("GAMMA", Generator.Value.Empty)]
    [("ALPHA", Generator.Value.Empty),
     ("BETA", Generator.Value.Literal "3"),
     ("GAMMA", Generator.Value.Literal "\"g\"")]
    rfl rfl rfl rfl rfl "GAMMA"

/-!
Part 14: order-independence of the first pass (towards C4).  We
characterise `processObject`/`processObjects` by state-independent
functions: whether a locale's objects panic depends only on the objects,
the category table written for a locale depends only on its own previous
table, and the field-metadata effect is a fold of per-key updates.
-/

/-- The locale's field table built by the `Fields` branch (state-independent). -/
def fieldsGo : List (String × List (List Parser.Value)) → SMap Generator.Value →
    SMap Generator.Value
  | [], fields => fields
  | (key0, group) :: rest, fields =>
    match Generator.classifyGroup group with
    | none => fieldsGo rest fields
    | some (gv, _) => fieldsGo rest (smInsert (normalizeKey key0) gv fields)

/-- One metadata update of the `Fields` branch: mark the key's `Meta`
(creating it when absent). -/
def cmSet (k : String) (marks : List Generator.MarkOp) (cm : SMap Generator.Meta) :
    SMap Generator.Meta :=
  smInsert k (Generator.applyMarks marks ((smLookup cm k).getD Generator.Meta.new)) cm

/-- The metadata effect of one category's groups. -/
def cmUpdGo : List (String × List (List Parser.Value)) → SMap Generator.Meta →
    SMap Generator.Meta
  | [], cm => cm
  | (key0, group) :: rest, cm =>
    match Generator.classifyGroup group with
    | none => cmUpdGo rest cm
    | some (_, marks) => cmUpdGo rest (cmSet (normalizeKey key0) marks cm)

/-- Update the field metadata at one category (creating it when absent). -/
def fmAt (name : String) (g : SMap Generator.Meta → SMap Generator.Meta)
    (fm : SMap (SMap Generator.Meta)) : SMap (SMap Generator.Meta) :=
  smInsert name (g ((smLookup fm name).getD [])) fm

/-- Whether processing an object is a genuine `Fields` table (touching the
field metadata). -/
def isFieldsObj (o : Parser.Object) : Bool :=
  if Generator.skipCategory o.name then false
  else
    match o.values with
    | [_] => false
    | _ => true

/-- Whether processing an object panics (`assert_eq!`/`panic!`/
`unimplemented!`): a property of the object alone. -/
def objOk (o : Parser.Object) : Bool :=
  if Generator.skipCategory o.name then true
  else
    match o.values with
    | [(key, value)] =>
      if key = "copy" then
        match value with
        | [Parser.Value.Str _] => true
        | _ => false
      else true
    | vals => (Generator.groupedValues vals).all (fun g => (Generator.classifyGroup g.2).isSome)

/-- The category-table effect of one object (reads only the locale's own
table). -/
def objCatsUpd (o : Parser.Object) (cats : SMap Generator.Category) :
    SMap Generator.Category :=
  if Generator.skipCategory o.name then cats
  else
    match o.values with
    | [(key, value)] =>
      if key = "copy" then
        match value with
        | [Parser.Value.Str x] =>
          smInsert o.name (Generator.Category.Link (rustReplace x "@" "_") o.name) cats
        | _ => cats
      else cats
    | vals =>
      smInsert o.name (Generator.Category.Fields (fieldsGo (Generator.groupedValues vals) []))
        cats

/-- The field-metadata effect of one object. -/
def objFmUpd (o : Parser.Object) (fm : SMap (SMap Generator.Meta)) :
    SMap (SMap Generator.Meta) :=
  if isFieldsObj o then fmAt o.name (cmUpdGo (Generator.groupedValues o.values)) fm else fm

def objsOk (objs : List Parser.Object) : Bool := objs.all objOk

def objsCatsUpd (objs : List Parser.Object) (cats : SMap Generator.Category) :
    SMap Generator.Category :=
  objs.foldl (fun c o => objCatsUpd o c) cats

def objsFmUpd (objs : List Parser.Object) (fm : SMap (SMap Generator.Meta)) :
    SMap (SMap Generator.Meta) :=
  objs.foldl (fun f o => objFmUpd o f) fm

theorem buildFields_char :
    ∀ (groups : List (String × List (List Parser.Value))) (fields : SMap Generator.Value)
      (cm : SMap Generator.Meta),
      Generator.buildFields groups fields cm =
        if groups.all (fun g => (Generator.classifyGroup g.2).isSome) then
          some (fieldsGo groups fields, cmUpdGo groups cm)
        else none := by
  intro groups
  induction groups with
  | nil => intro fields cm; simp [Generator.buildFields, fieldsGo, cmUpdGo]
  | cons g rest ih =>
    intro fields cm
    obtain ⟨key0, group⟩ := g
    simp only [Generator.buildFields, fieldsGo, cmUpdGo, List.all_cons]
    cases hc : Generator.classifyGroup group with
    | none => simp [hc]
    | some p =>
      obtain ⟨gv, marks⟩ := p
      simp only [hc, ih, cmSet, Option.isSome_some, Bool.true_and]

theorem processObject_char (o : Parser.Object) (cats : SMap Generator.Category)
    (fm : SMap (SMap Generator.Meta)) :
    Generator.processObject cats fm o =
      if objOk o then some (objCatsUpd o cats, objFmUpd o fm) else none := by
  by_cases hs : Generator.skipCategory o.name
  · simp [Generator.processObject, objOk, objCatsUpd, objFmUpd, isFieldsObj, hs]
  · cases hov : o.values with
    | nil =>
      simp only [Generator.processObject, objOk, objCatsUpd, objFmUpd, isFieldsObj, fmAt,
        hs, hov, Bool.false_eq_true, if_false, buildFields_char]
      by_cases hall : (Generator.groupedValues
          ([] : List (String × List Parser.Value))).all
          (fun g => (Generator.classifyGroup g.2).isSome) <;> simp [hall]
    | cons hd tl =>
      obtain ⟨key, value⟩ := hd
      cases tl with
      | nil =>
        by_cases hk : key = "copy"
        · subst hk
          cases value with
          | nil =>
            simp [Generator.processObject, objOk, objCatsUpd, objFmUpd, isFieldsObj, hs, hov]
          | cons v0 vt =>
            cases vt with
            | nil =>
              cases v0 <;>
                simp [Generator.processObject, objOk, objCatsUpd, objFmUpd, isFieldsObj,
                  hs, hov]
            | cons v1 vt2 =>
              simp [Generator.processObject, objOk, objCatsUpd, objFmUpd, isFieldsObj,
                hs, hov]
        · simp [Generator.processObject, objOk, objCatsUpd, objFmUpd, isFieldsObj, hs, hov, hk]
      | cons hd2 tl2 =>
        simp only [Generator.processObject, objOk, objCatsUpd, objFmUpd, isFieldsObj, fmAt,
          hs, hov, Bool.false_eq_true, if_false, buildFields_char]
        by_cases hall : (Generator.groupedValues ((key, value) :: hd2 :: tl2)).all
            (fun g => (Generator.classifyGroup g.2).isSome) <;> simp [hall]

theorem processObjects_char :
    ∀ (objs : List Parser.Object) (cats : SMap Generator.Category)
      (fm : SMap (SMap Generator.Meta)),
      Generator.processObjects objs cats fm =
        if objsOk objs then some (objsCatsUpd objs cats, objsFmUpd objs fm) else none := by
  intro objs
  induction objs with
  | nil => intro cats fm; simp [Generator.processObjects, objsOk, objsCatsUpd, objsFmUpd]
  | cons o rest ih =>
    intro cats fm
    simp only [Generator.processObjects, processObject_char, objsOk, List.all_cons,
      objsCatsUpd, objsFmUpd, List.foldl_cons]
    by_cases ho : objOk o
    · simp only [ho, if_true, Bool.true_and]
      exact ih (objCatsUpd o cats) (objFmUpd o fm)
    · simp [ho]

theorem processLocale_char (st : Generator.CodeGenerator) (lang : String)
    (objs : List Parser.Object) :
    Generator.processLocale st lang objs =
      if objsOk objs then
        some { by_language :=
                 smInsert lang
                   (objsCatsUpd objs ((smLookup st.by_language lang).getD []))
                   st.by_language,
               field_metadata := objsFmUpd objs st.field_metadata,
               normalized_langs :=
                 smInsert lang (rustReplace lang "@" "_") st.normalized_langs }
      else none := by
  unfold Generator.processLocale
  rw [processObjects_char]
  by_cases ho : objsOk objs <;> simp [ho]

/-!
Part 15: commutation.  Mark operations on a `Meta` commute, hence the
per-key metadata updates commute, hence the field-metadata effects of two
objects (and of two whole locales) commute.
-/

theorem applyMark_comm (o1 o2 : Generator.MarkOp) (m : Generator.Meta) :
    Generator.applyMark o1 (Generator.applyMark o2 m) =
      Generator.applyMark o2 (Generator.applyMark o1 m) := by
  obtain ⟨opt, cty, ty⟩ := m
  cases o1 <;> cases o2 <;> cases cty <;> rcases ty with _ | t <;> try rfl
  all_goals cases t <;> rfl

theorem applyMark_applyMarks (op : Generator.MarkOp) (ms : List Generator.MarkOp) :
    ∀ m, Generator.applyMark op (Generator.applyMarks ms m) =
      Generator.applyMarks ms (Generator.applyMark op m) := by
  induction ms with
  | nil => intro m; rfl
  | cons o2 t ih =>
    intro m
    show Generator.applyMark op (Generator.applyMarks t (Generator.applyMark o2 m)) =
      Generator.applyMarks t (Generator.applyMark o2 (Generator.applyMark op m))
    rw [ih, applyMark_comm]

theorem applyMarks_comm (ms1 ms2 : List Generator.MarkOp) (m : Generator.Meta) :
    Generator.applyMarks ms1 (Generator.applyMarks ms2 m) =
      Generator.applyMarks ms2 (Generator.applyMarks ms1 m) := by
  induction ms1 generalizing m with
  | nil => rfl
  | cons op t ih =>
    show Generator.applyMarks t (Generator.applyMark op (Generator.applyMarks ms2 m)) =
      Generator.applyMarks ms2 (Generator.applyMarks t (Generator.applyMark op m))
    rw [applyMark_applyMarks, ih]

theorem cmSet_comm (k1 k2 : String) (ms1 ms2 : List Generator.MarkOp)
    (cm : SMap Generator.Meta) :
    cmSet k1 ms1 (cmSet k2 ms2 cm) = cmSet k2 ms2 (cmSet k1 ms1 cm) := by
  by_cases h : k1 = k2
  · subst h
    unfold cmSet
    rw [smLookup_insert_self, smLookup_insert_self, smInsert_insert_self,
      smInsert_insert_self]
    simp only [Option.getD_some]
    rw [applyMarks_comm]
  · unfold cmSet
    rw [smLookup_insert_ne _ _ _ _ h, smLookup_insert_ne _ _ _ _ (Ne.symm h),
      smInsert_comm _ _ _ _ _ h]

theorem cmUpdGo_cmSet_comm (groups : List (String × List (List Parser.Value))) :
    ∀ (k : String) (ms : List Generator.MarkOp) (cm : SMap Generator.Meta),
      cmUpdGo groups (cmSet k ms cm) = cmSet k ms (cmUpdGo groups cm) := by
  induction groups with
  | nil => intro k ms cm; rfl
  | cons g rest ih =>
    intro k ms cm
    obtain ⟨key0, group⟩ := g
    simp only [cmUpdGo]
    cases Generator.classifyGroup group with
    | none => exact ih k ms cm
    | some p =>
      obtain ⟨gv, marks⟩ := p
      dsimp only
      rw [cmSet_comm, ih]

theorem cmUpdGo_comm (g1 g2 : List (String × List (List Parser.Value))) :
    ∀ cm, cmUpdGo g1 (cmUpdGo g2 cm) = cmUpdGo g2 (cmUpdGo g1 cm) := by
  induction g1 with
  | nil => intro cm; rfl
  | cons e rest ih =>
    intro cm
    obtain ⟨key0, group⟩ := e
    simp only [cmUpdGo]
    cases Generator.classifyGroup group with
    | none => exact ih cm
    | some p =>
      obtain ⟨gv, marks⟩ := p
      dsimp only
      rw [cmUpdGo_cmSet_comm, ih, cmUpdGo_cmSet_comm rest, cmUpdGo_cmSet_comm g2]

theorem fmAt_comm (n1 n2 : String) (g1 g2 : SMap Generator.Meta → SMap Generator.Meta)
    (hg : ∀ cm, g1 (g2 cm) = g2 (g1 cm)) (fm : SMap (SMap Generator.Meta)) :
    fmAt n1 g1 (fmAt n2 g2 fm) = fmAt n2 g2 (fmAt n1 g1 fm) := by
  by_cases h : n1 = n2
  · subst h
    unfold fmAt
    rw [smLookup_insert_self, smLookup_insert_self, smInsert_insert_self,
      smInsert_insert_self]
    simp only [Option.getD_some]
    rw [hg]
  · unfold fmAt
    rw [smLookup_insert_ne _ _ _ _ h, smLookup_insert_ne _ _ _ _ (Ne.symm h),
      smInsert_comm _ _ _ _ _ h]

theorem objFmUpd_comm (o1 o2 : Parser.Object) (fm : SMap (SMap Generator.Meta)) :
    objFmUpd o1 (objFmUpd o2 fm) = objFmUpd o2 (objFmUpd o1 fm) := by
  unfold objFmUpd
  by_cases h1 : isFieldsObj o1 <;> by_cases h2 : isFieldsObj o2 <;> simp [h1, h2]
  exact fmAt_comm _ _ _ _ (cmUpdGo_comm _ _) fm

theorem foldl_comm_of_comm {α σ : Type} (f : σ → α → σ)
    (hc : ∀ s a b, f (f s a) b = f (f s b) a) :
    ∀ (l : List α) (s : σ) (a : α), f (List.foldl f s l) a = List.foldl f (f s a) l := by
  intro l
  induction l with
  | nil => intro s a; rfl
  | cons x t ih =>
    intro s a
    simp only [List.foldl_cons]
    rw [ih, hc]

theorem foldl_foldl_comm {α σ : Type} (f : σ → α → σ)
    (hc : ∀ s a b, f (f s a) b = f (f s b) a) (l1 l2 : List α) :
    ∀ s, List.foldl f (List.foldl f s l1) l2 = List.foldl f (List.foldl f s l2) l1 := by
  induction l1 with
  | nil => intro s; rfl
  | cons x t ih =>
    intro s
    simp only [List.foldl_cons]
    rw [ih (f s x), ← foldl_comm_of_comm f hc l2 s x]

theorem objsFmUpd_comm (objs1 objs2 : List Parser.Object)
    (fm : SMap (SMap Generator.Meta)) :
    objsFmUpd objs1 (objsFmUpd objs2 fm) = objsFmUpd objs2 (objsFmUpd objs1 fm) := by
  unfold objsFmUpd
  exact foldl_foldl_comm _ (fun s a b => objFmUpd_comm b a s) objs2 objs1 fm

/-!
Part 16: two adjacent locales with distinct names can be processed in
either order, and `pass1Go` is invariant under permutations of its input
when locale names are distinct (as they are for files on disk).
-/

theorem pass1Step_comm (st : Generator.CodeGenerator) (l1 l2 : String)
    (objs1 objs2 : List Parser.Object) (h : l1 ≠ l2) :
    (Generator.processLocale st l1 objs1).bind
        (fun s => Generator.processLocale s l2 objs2) =
      (Generator.processLocale st l2 objs2).bind
        (fun s => Generator.processLocale s l1 objs1) := by
  by_cases h1 : objsOk objs1
  · by_cases h2 : objsOk objs2
    · rw [processLocale_char st l1 objs1, processLocale_char st l2 objs2, if_pos h1,
        if_pos h2, Option.some_bind, Option.some_bind, processLocale_char,
        processLocale_char, if_pos h2, if_pos h1]
      dsimp only
      refine congrArg some ?_
      congr 1
      · rw [smLookup_insert_ne _ _ _ _ (Ne.symm h), smLookup_insert_ne _ _ _ _ h]
        exact smInsert_comm _ _ _ _ _ (Ne.symm h)
      · exact objsFmUpd_comm objs2 objs1 st.field_metadata
      · exact smInsert_comm _ _ _ _ _ (Ne.symm h)
    · simp [processLocale_char, h1, h2]
  · simp [processLocale_char, h1]

theorem pass1Go_cons (st : Generator.CodeGenerator)
    (a : String × List Parser.Object) (l : List (String × List Parser.Object)) :
    Generator.pass1Go st (a :: l) =
      (Generator.processLocale st a.1 a.2).bind (fun s => Generator.pass1Go s l) := by
  obtain ⟨al, ao⟩ := a
  simp only [Generator.pass1Go]
  cases Generator.processLocale st al ao <;> rfl

theorem pass1Go_perm {l1 l2 : List (String × List Parser.Object)}
    (hp : l1.Perm l2) : (l1.map Prod.fst).Nodup →
    ∀ st, Generator.pass1Go st l1 = Generator.pass1Go st l2 := by
  induction hp with
  | nil => intro _ st; rfl
  | @cons x t1 t2 p ih =>
    intro hnd st
    rw [pass1Go_cons, pass1Go_cons]
    have hnd2 : (t1.map Prod.fst).Nodup := (List.nodup_cons.mp hnd).2
    cases Generator.processLocale st x.1 x.2 with
    | none => rfl
    | some st2 =>
      rw [Option.some_bind, Option.some_bind]
      exact ih hnd2 st2
  | swap x y t =>
    intro hnd st
    have hyx : y.1 ≠ x.1 := by
      simp only [List.map_cons, List.nodup_cons, List.mem_cons] at hnd
      exact fun he => hnd.1 (Or.inl he)
    rw [pass1Go_cons, pass1Go_cons]
    have e1 : ∀ u : Option Generator.CodeGenerator,
        u.bind (fun s => Generator.pass1Go s (x :: t)) =
          (u.bind (fun s => Generator.processLocale s x.1 x.2)).bind
            (fun s2 => Generator.pass1Go s2 t) := by
      intro u
      cases u <;> simp [pass1Go_cons]
    have e2 : ∀ u : Option Generator.CodeGenerator,
        u.bind (fun s => Generator.pass1Go s (y :: t)) =
          (u.bind (fun s => Generator.processLocale s y.1 y.2)).bind
            (fun s2 => Generator.pass1Go s2 t) := by
      intro u
      cases u <;> simp [pass1Go_cons]
    rw [e1, e2, pass1Step_comm st y.1 x.1 y.2 x.2 hyx]
  | trans hab hbc ih1 ih2 =>
    intro hnd st
    rw [ih1 hnd st, ih2 (((hab.map Prod.fst).nodup_iff).mp hnd) st]

/-!
Part 17: the generated maps are sorted (lexicographic key order) and the
per-category metadata tables stay sorted through both passes.
-/

/-- Every per-category metadata table in the field metadata is sorted. -/
def wfInner (fm : SMap (SMap Generator.Meta)) : Prop := ∀ e ∈ fm, smSorted e.2

theorem cmUpdGo_sorted (groups : List (String × List (List Parser.Value))) :
    ∀ cm, smSorted cm → smSorted (cmUpdGo groups cm) := by
  induction groups with
  | nil => intro cm h; exact h
  | cons g rest ih =>
    intro cm h
    obtain ⟨key0, group⟩ := g
    simp only [cmUpdGo]
    cases Generator.classifyGroup group with
    | none => exact ih cm h
    | some p =>
      obtain ⟨gv, marks⟩ := p
      exact ih _ (smSorted_insert _ _ h)

theorem objFmUpd_wfInner (o : Parser.Object) (fm : SMap (SMap Generator.Meta))
    (h : wfInner fm) : wfInner (objFmUpd o fm) := by
  unfold objFmUpd
  by_cases hf : isFieldsObj o
  · simp only [hf, if_true]
    unfold fmAt
    intro e he
    rcases mem_smInsert he with he1 | he1
    · rw [he1]
      refine cmUpdGo_sorted _ _ ?_
      cases hl : smLookup fm o.name with
      | none => exact List.Pairwise.nil
      | some v => simpa using h _ (smLookup_mem hl)
    · exact h e he1
  · simpa [hf] using h

theorem objsFmUpd_wfInner (objs : List Parser.Object) :
    ∀ fm, wfInner fm → wfInner (objsFmUpd objs fm) := by
  induction objs with
  | nil => intro fm h; exact h
  | cons o rest ih =>
    intro fm h
    show wfInner (List.foldl (fun f o => objFmUpd o f) fm (o :: rest))
    simp only [List.foldl_cons]
    exact ih _ (objFmUpd_wfInner o fm h)

theorem pass1Go_wfInner : ∀ {input : List (String × List Parser.Object)}
    {st st' : Generator.CodeGenerator},
    Generator.pass1Go st input = some st' → wfInner st.field_metadata →
    smSorted st.normalized_langs →
    wfInner st'.field_metadata ∧ smSorted st'.normalized_langs := by
  intro input
  induction input with
  | nil =>
    intro st st' h hi hn
    simp only [Generator.pass1Go, Option.some.injEq] at h
    subst h
    exact ⟨hi, hn⟩
  | cons e rest ih =>
    intro st st' h hi hn
    obtain ⟨lang, objs⟩ := e
    simp only [Generator.pass1Go] at h
    cases hp : Generator.processLocale st lang objs with
    | none => simp only [hp] at h; exact Option.noConfusion h
    | some st2 =>
      simp only [hp] at h
      rw [processLocale_char] at hp
      by_cases ho : objsOk objs
      · rw [if_pos ho] at hp
        have hst2 := (Option.some.injEq _ _).mp hp
        refine ih h ?_ ?_
        · rw [← hst2]
          exact objsFmUpd_wfInner objs st.field_metadata hi
        · rw [← hst2]
          exact smSorted_insert _ _ hn
      · rw [if_neg ho] at hp
        exact Option.noConfusion hp

theorem unifyFields_metas_keys :
    ∀ (metas : List (String × Generator.Meta)) (fields : SMap Generator.Value),
      (Generator.unifyFields fields metas).2.map Prod.fst = metas.map Prod.fst := by
  intro metas
  induction metas with
  | nil => intro fields; rfl
  | cons e rest ih =>
    intro fields
    obtain ⟨k, m⟩ := e
    simp only [Generator.unifyFields]
    cases hl : smLookup fields k <;> simp [ih]

theorem smSorted_of_keys_eq {α β : Type} {m1 : List (String × α)}
    {m2 : List (String × β)} (h : m1.map Prod.fst = m2.map Prod.fst)
    (hs : smSorted m1) : smSorted m2 := by
  have h1 : List.Pairwise (fun a b : String => keyLt a b = true) (m1.map Prod.fst) :=
    (List.pairwise_map).mpr hs
  rw [h] at h1
  exact (List.pairwise_map).mp h1

theorem unifyCategory_metas_sorted (cat : Generator.Category)
    (metas : List (String × Generator.Meta)) (hs : smSorted metas) :
    smSorted (Generator.unifyCategory cat metas).2 := by
  cases cat with
  | Link a b => exact hs
  | Fields f =>
    exact smSorted_of_keys_eq (unifyFields_metas_keys metas f).symm hs

theorem pass2LangGo_wfInner :
    ∀ (E : List (String × SMap Generator.Meta)) (cats : SMap Generator.Category)
      (fm : SMap (SMap Generator.Meta)),
      (∀ e ∈ E, smSorted e.2) → wfInner fm →
      wfInner (Generator.pass2LangGo cats fm E).2 := by
  intro E
  induction E with
  | nil => intro cats fm _ hfm; exact hfm
  | cons e rest ih =>
    intro cats fm hE hfm
    obtain ⟨c0, m0⟩ := e
    simp only [Generator.pass2LangGo]
    refine ih _ _ (fun e2 he2 => hE e2 (List.mem_cons_of_mem _ he2)) ?_
    intro e2 he2
    rcases mem_smInsert he2 with he3 | he3
    · rw [he3]
      exact unifyCategory_metas_sorted _ _ (hE (c0, m0) (List.mem_cons_self _ _))
    · exact hfm e2 he3

theorem pass2Go_wfInner :
    ∀ (E : List (String × SMap Generator.Category)) (bl : SMap (SMap Generator.Category))
      (fm : SMap (SMap Generator.Meta)), wfInner fm →
      wfInner (Generator.pass2Go bl fm E).2 := by
  intro E
  induction E with
  | nil => intro bl fm h; exact h
  | cons e rest ih =>
    intro bl fm h
    obtain ⟨lang, cats⟩ := e
    simp only [Generator.pass2Go]
    exact ih _ _ (pass2LangGo_wfInner fm cats fm h h)

theorem pass2Go_sorted :
    ∀ (E : List (String × SMap Generator.Category)) (bl : SMap (SMap Generator.Category))
      (fm : SMap (SMap Generator.Meta)), smSorted bl → smSorted fm →
      smSorted (Generator.pass2Go bl fm E).1 ∧ smSorted (Generator.pass2Go bl fm E).2 := by
  intro E
  induction E with
  | nil => intro bl fm h1 h2; exact ⟨h1, h2⟩
  | cons e rest ih =>
    intro bl fm h1 h2
    obtain ⟨lang, cats⟩ := e
    simp only [Generator.pass2Go]
    exact ih _ _ (smSorted_insert _ _ h1) (pass2LangGo_sorted fm cats fm h2)

/-!
Part 18: claim C4.
-/

/-- **C4.** Unification is deterministic: `CodeGenerator::new` yields the
same generator (and hence, output formatting being a function of the
generator, byte-identical text) for any two iteration orders of the input
`HashMap` (modelled as permuted association lists with distinct locale
names), and in the result the locales (`by_language`, `normalized_langs`)
and the field keys (`field_metadata`, outer and per-category) are ordered
lexicographically (strictly ascending in the byte order `keyLt` of the
`BTreeMap` keys). -/
theorem claim_C4_unification_deterministic
    (input1 input2 : List (String × List Parser.Object))
    (hperm : input1.Perm input2) (hnodup : (input1.map Prod.fst).Nodup) :
    Generator.CodeGenerator.new input1 = Generator.CodeGenerator.new input2 ∧
    ∀ cg, Generator.CodeGenerator.new input1 = some cg →
      smSorted cg.by_language ∧ smSorted cg.normalized_langs ∧
      smSorted cg.field_metadata ∧ ∀ e ∈ cg.field_metadata, smSorted e.2 := by
  constructor
  · unfold Generator.CodeGenerator.new
    rw [pass1Go_perm hperm hnodup]
  · intro cg hcg
    unfold Generator.CodeGenerator.new at hcg
    cases h1 : Generator.pass1Go
        { by_language := [], field_metadata := [], normalized_langs := [] } input1 with
    | none => rw [h1] at hcg; exact Option.noConfusion hcg
    | some st1 =>
      rw [h1] at hcg
      rw [Option.map_some'] at hcg
      have hcg2 : Generator.pass2 st1 = cg := (Option.some.injEq _ _).mp hcg
      have hinit1 : invS { by_language := [], field_metadata := [], normalized_langs := [] } := by
        intro lang cats hl
        simp [smLookup] at hl
      have hinit2 : wfS { by_language := [], field_metadata := [], normalized_langs := [] } :=
        ⟨List.Pairwise.nil, List.Pairwise.nil⟩
      have hw : wfS st1 := (pass1Go_inv h1 hinit1 hinit2).2
      have hwi := pass1Go_wfInner h1 (fun e he => absurd he (List.not_mem_nil e))
        List.Pairwise.nil
      have hs2 := pass2Go_sorted st1.by_language st1.by_language st1.field_metadata
        hw.1 hw.2
      have hwi2 := pass2Go_wfInner st1.by_language st1.by_language st1.field_metadata
        hwi.1
      rw [← hcg2]
      exact ⟨hs2.1, hwi.2, hs2.2, hwi2⟩

/-- Concrete instance of C4: swapping two locales in the input map does not
change the generated `CodeGenerator`. -/
theorem claim_C4_witness :
    Generator.CodeGenerator.new
        [("bb", [{ name := "LC_X",
                   values := [("alpha", [Parser.Value.Integer 1])] }]), ("aa", [])] =
      Generator.CodeGenerator.new
        [("aa", []), ("bb", [{ name := "LC_X",
                               values := [("alpha", [Parser.Value.Integer 1])] }])] :=
  (claim_C4_unification_deterministic _ _
    (List.Perm.swap ("aa", [])
      ("bb", [{ name := "LC_X", values := [("alpha", [Parser.Value.Integer 1])] }]) [])
    (by decide)).1
